import Mathlib

/-!
Verification development for the SuperFlag configuration resolution engine
(`hooks/superflag.py`).  The Python functions `expand_flag_keys`,
`clean_directive_config`, `merge_configs`, `normalize_directives`,
`resolve_include_targets`, `collect_yaml_files`, `load_profile_tree`,
`resolve_profile_path` and `load_config` are shallowly embedded as
executable Lean functions over a model of YAML values and of the
filesystem.  YAML mapping keys are modelled as strings (the code coerces
non-string keys to strings before use).  `copy.deepcopy` is the identity
at this value level; a separate identity-labelled model (`IVal`) is used
to reason about aliasing and mutation.  Recursive functions over the
nested `Value` type take an explicit fuel argument (with a computable
sufficient bound) so that every definition reduces inside the kernel.
-/

namespace SuperFlag

/-- A YAML document value, as produced by `yaml.safe_load`.  Mappings are
insertion-ordered association lists with string keys, mirroring Python
dicts. -/
inductive Value where
  | null : Value
  | bool (b : Bool) : Value
  | int (n : Int) : Value
  | str (s : String) : Value
  | list (xs : List Value) : Value
  | dict (m : List (String × Value)) : Value

/-- A Python dict with string keys: an insertion-ordered association list. -/
abbrev Dict := List (String × Value)

mutual
/-- A computable structural size of a value, used as a fuel bound for the
recursion of `merge_configs` (which descends into nested mappings). -/
def valueSize : Value → Nat
  | .null => 1
  | .bool _ => 1
  | .int _ => 1
  | .str _ => 1
  | .list xs => 1 + listSizeV xs
  | .dict m => 1 + entsSize m
def listSizeV : List Value → Nat
  | [] => 0
  | v :: rest => valueSize v + listSizeV rest
def entsSize : List (String × Value) → Nat
  | [] => 0
  | kv :: rest => valueSize kv.2 + entsSize rest
end

/-- Python `d.get(key)`: the value bound to the first matching key. -/
def alistGet : Dict → String → Option Value
  | [], _ => none
  | (k, v) :: rest, key => if k = key then some v else alistGet rest key

/-- Python `d[key] = val`: update in place if the key is present
(keeping its position), otherwise append at the end. -/
def alistSet : Dict → String → Value → Dict
  | [], key, val => [(key, val)]
  | (k, v) :: rest, key, val =>
      if k = key then (k, val) :: rest else (k, v) :: alistSet rest key val

/-- Python `d.pop(key, None)`: remove the binding of `key` if present. -/
def alistPop : Dict → String → Dict
  | [], _ => []
  | (k, v) :: rest, key => if k = key then rest else (k, v) :: alistPop rest key

/-- Python truthiness of a value (`bool(v)`), used by `... or {}` and
`if not config`. -/
def pyTruthy : Value → Bool
  | .null => false
  | .bool b => b
  | .int n => n != 0
  | .str s => s != ""
  | .list xs => !xs.isEmpty
  | .dict m => !m.isEmpty

/-- The whitespace characters of Python's `str.strip` / `\s` (ASCII range). -/
def pyIsSpace (c : Char) : Bool :=
  c = ' ' || c = '\t' || c = '\n' || c = '\r' || c = '\x0b' || c = '\x0c'

/-- Drop trailing characters satisfying `p`. -/
def dropTrailing (p : Char → Bool) (cs : List Char) : List Char :=
  (cs.reverse.dropWhile p).reverse

/-- Python `s.strip()` on the character list. -/
def stripChars (cs : List Char) : List Char :=
  dropTrailing pyIsSpace (cs.dropWhile pyIsSpace)

/-- Python `s.strip()`. -/
def pyStrip (s : String) : String := String.mk (stripChars s.data)

/-- Python `s.lower()` (ASCII). -/
def pyLower (s : String) : String := String.mk (s.data.map Char.toLower)

/-- A separator for the flag-token pattern: the characters excluded by
`[^,|\s]` in the regex `--[^,|\s]+`. -/
def isSepChar (c : Char) : Bool := c = ',' || c = '|' || pyIsSpace c

/-- One fuelled step of `re.findall(r'--[^,|\s]+', raw_key)`: scan left to
right for non-overlapping matches `--` followed by a maximal nonempty run
of non-separator characters.  The fuel only bounds the recursion;
`cs.length` is always sufficient. -/
def findFlagsF : Nat → List Char → List String
  | 0, _ => []
  | _ + 1, [] => []
  | f + 1, '-' :: '-' :: d :: rest2 =>
      if isSepChar d then findFlagsF f ('-' :: d :: rest2)
      else
        let run := (d :: rest2).takeWhile (fun x => !isSepChar x)
        let rest' := (d :: rest2).dropWhile (fun x => !isSepChar x)
        ("--" ++ String.mk run) :: findFlagsF f rest'
  | f + 1, _ :: rest => findFlagsF f rest

/-- `re.findall(r'--[^,|\s]+', s)`. -/
def findFlags (s : String) : List String := findFlagsF s.data.length s.data

/-- Split a character list at every character satisfying `p` (the
separators are dropped; empty groups are kept), as `re.split` and
`str.split` do for single-character separators. -/
def splitChars (p : Char → Bool) : List Char → List (List Char)
  | [] => [[]]
  | c :: rest =>
      match splitChars p rest with
      | [] => [[c]]
      | g :: gs =>
          if p c then [] :: g :: gs else (c :: g) :: gs

/-- `re.split(r'[,|]', s)` on the character list: split on every single
comma or pipe. -/
def splitOnSeps : List Char → List (List Char) :=
  splitChars (fun c => c = ',' || c = '|')

/-- Python `set.add` modelled on a duplicate-free list keeping insertion
order (only membership of the result is semantically relied upon, since
Python set iteration order is unspecified). -/
def setAdd (l : List String) (s : String) : List String :=
  if s ∈ l then l else l ++ [s]

/-- The `trimmed = x.strip(); if trimmed: keys.add(trimmed)` step used
throughout `expand_flag_keys`. -/
def addStripped (ks : List String) (s : String) : List String :=
  let t := pyStrip s
  if t ≠ "" then setAdd ks t else ks

/-- `expand_flag_keys(raw_key, directive)` (superflag.py lines 221-251):
collect the regex matches of the canonical flag pattern; if none, fall
back to splitting the raw key on commas/pipes; finally add every
non-empty trimmed string from the `aliases` and `variations` fields of a
mapping directive. -/
def expand_flag_keys (raw_key : String) (directive : Value) : List String :=
  let keys := (findFlags raw_key).foldl addStripped []
  let keys := if keys.isEmpty then
      (splitOnSeps raw_key.data).foldl
        (fun ks part => addStripped ks (String.mk part)) keys
    else keys
  match directive with
  | .dict dd =>
      ["aliases", "variations"].foldl (fun ks field =>
        match alistGet dd field with
        | some (.list xs) =>
            xs.foldl (fun ks a =>
              match a with
              | .str s => addStripped ks s
              | _ => ks) ks
        | _ => ks) keys
  | _ => keys

/-- `clean_directive_config(directive)` (lines 254-261): drop the
`aliases` and `variations` fields; `copy.deepcopy` of each kept value is
the identity at this level. -/
def clean_directive_config (directive : Dict) : Dict :=
  directive.foldl
    (fun cleaned kv =>
      if kv.1 = "aliases" || kv.1 = "variations" then cleaned
      else alistSet cleaned kv.1 kv.2) []

/-- One iteration of the `for flag, directive in
directives_overlay.items()` loop of `merge_configs` (lines 138-153),
acting on the result's `directives` dict `dirs`: a null directive pops
the raw key and every expanded key; a mapping directive stores its
cleaned copy under every expanded key; any other directive is stored as
is under every expanded key. -/
def applyEntry (dirs : Dict) (fd : String × Value) : Dict :=
  let keys := expand_flag_keys fd.1 fd.2
  match fd.2 with
  | Value.null => keys.foldl (fun d k => alistPop d k) (alistPop dirs fd.1)
  | Value.dict dd =>
      let cleaned := clean_directive_config dd
      keys.foldl (fun d k => alistSet d k (Value.dict cleaned)) dirs
  | other => keys.foldl (fun d k => alistSet d k other) dirs

/-- The whole directives loop of `merge_configs` (lines 138-153). -/
def applyDirectives (dirs : Dict) (dOv : Dict) : Dict :=
  dOv.foldl applyEntry dirs

/-- `existing = result.get(key) if isinstance(result.get(key), dict)
else {}` (line 163). -/
def existingDict (result : Dict) (k : String) : Dict :=
  match alistGet result k with
  | some (Value.dict em) => em
  | _ => []

/-- The generic top-level loop of `merge_configs` (lines 155-166), with
the recursive merge passed in as `recMerge`: the key `directives` is
always skipped; a null value deletes the key; a mapping value is merged
recursively against the existing mapping (or `{}`); anything else is
deep-copied (identity here) and assigned. -/
def merge_generic (recMerge : Dict → Dict → Option Dict) :
    Dict → Dict → Option Dict
  | result, [] => some result
  | result, (k, v) :: rest =>
    if k = "directives" then merge_generic recMerge result rest
    else
      match v with
      | Value.null => merge_generic recMerge (alistPop result k) rest
      | Value.dict m =>
          match recMerge (existingDict result k) m with
          | none => none
          | some merged =>
              merge_generic recMerge (alistSet result k (Value.dict merged)) rest
      | _ => merge_generic recMerge (alistSet result k v) rest

/-- Fuelled `merge_configs(base, overlay)` (lines 131-168).  `none`
models an uncaught Python `TypeError`/`AttributeError`: the code crashes
when `result.setdefault('directives', {})` yields a non-dict value and
the overlay's `directives` dict is nonempty.  The `result ++ [...]`
branch is `setdefault` inserting a fresh `{}` at the end when the key is
absent, then mutating it through the directives loop.  The fuel bounds
the nesting depth of the overlay; `sizeOf overlay + 1` is always
sufficient. -/
def merge_configs_fuel : Nat → Dict → Dict → Option Dict
  | 0, _, _ => none
  | fuel + 1, base, overlay =>
    let result := base
    let afterDirectives : Option Dict :=
      match alistGet overlay "directives" with
      | some (Value.dict dOv) =>
        match alistGet result "directives" with
        | some (Value.dict d0) =>
            some (alistSet result "directives" (Value.dict (applyDirectives d0 dOv)))
        | some _ => if dOv.isEmpty then some result else none
        | none => some (result ++ [("directives", Value.dict (applyDirectives [] dOv))])
      | _ => some result
    match afterDirectives with
    | none => none
    | some r1 => merge_generic (merge_configs_fuel fuel) r1 overlay

/-- `merge_configs(base, overlay)`, with a fuel that is always
sufficient for the nesting depth of `overlay`. -/
def merge_configs (base overlay : Dict) : Option Dict :=
  merge_configs_fuel (entsSize overlay + 1) base overlay

/-- The `for raw_key, directive in directives.items()` loop of
`normalize_directives` (lines 270-285), building the rebuilt map from
`acc`: every raw key is expanded, mapping directives are cleaned, and
null directives are kept (bound to null under every expanded key). -/
def normalizeLoop (acc : Dict) (m : Dict) : Dict :=
  m.foldl (fun acc rd =>
    let keys := expand_flag_keys rd.1 rd.2
    match rd.2 with
    | Value.null => keys.foldl (fun a k => alistSet a k Value.null) acc
    | Value.dict dd =>
        let cleaned := clean_directive_config dd
        keys.foldl (fun a k => alistSet a k (Value.dict cleaned)) acc
    | other => keys.foldl (fun a k => alistSet a k other) acc) acc

/-- `normalize_directives(config)` (lines 264-287), as a pure function
returning the updated config: if `config['directives']` is a dict,
rebuild it by expanding every raw key and cleaning mapping directives;
otherwise the config is returned unchanged. -/
def normalize_directives (config : Dict) : Dict :=
  match alistGet config "directives" with
  | some (Value.dict m) =>
    alistSet config "directives" (Value.dict (normalizeLoop [] m))
  | _ => config

/-! ## Filesystem model

Paths are lists of components of a resolved absolute path.  The
filesystem is a flat map from file paths to parse outcomes plus a list
of directory paths; `Path.resolve()` is modelled by `normalizePath`
(removal of `.` and `..` components). -/

/-- A resolved absolute path, as its list of components. -/
abbrev FPath := List String

/-- The outcome of opening and `yaml.safe_load`-ing a file: a parsed
document, or a `yaml.YAMLError`. -/
inductive Doc where
  | parsed (v : Value) : Doc
  | bad : Doc

/-- A filesystem: file paths with their parse outcomes, and directory
paths. -/
structure FS where
  files : List (FPath × Doc)
  dirs : List FPath

/-- The Python exceptions the engine can raise.  `typeError` stands for
the uncaught `TypeError`/`AttributeError`/`IsADirectoryError` family;
`outOfFuel` is a modelling artefact for insufficient recursion fuel. -/
inductive PyExc where
  | fileNotFound : PyExc
  | yamlError : PyExc
  | valueError : PyExc
  | typeError : PyExc
  | outOfFuel : PyExc
deriving DecidableEq

/-- Look up a file node. -/
def lookupFile (fs : FS) (p : FPath) : Option Doc :=
  (fs.files.find? (fun e => e.1 == p)).map (fun e => e.2)

/-- `p.is_dir()`. -/
def isDirFS (fs : FS) (p : FPath) : Bool := fs.dirs.any (fun d => d == p)

/-- `p.exists()`. -/
def existsFS (fs : FS) (p : FPath) : Bool :=
  (lookupFile fs p).isSome || isDirFS fs p

/-- `Path.parent` of an absolute path. -/
def pathParent (p : FPath) : FPath := p.dropLast

/-- `Path.resolve()`: drop `.` components and fold `..` into the parent.
Filesystem keys are stored in this normal form. -/
def normalizePath (p : FPath) : FPath :=
  p.foldl (fun acc c =>
    if c = "." then acc else if c = ".." then acc.dropLast else acc ++ [c]) []

/-- The components of a reference string (split on `/`, dropping empty
components as path normalization does). -/
def refToComponents (ref : String) : FPath :=
  ((splitChars (fun c => c = '/') ref.data).map String.mk).filter (fun s => s ≠ "")

/-- `Path(ref).is_absolute()`. -/
def refIsAbsolute (ref : String) : Bool :=
  match ref.data with
  | '/' :: _ => true
  | _ => false

/-- The final component of a path (`Path.name`). -/
def lastComponent (p : FPath) : String := p.getLastD ""

/-- `Path.suffix` of a file name: the part from the last dot on, provided
that dot is neither the first nor the last character. -/
def pySuffix (name : String) : String :=
  let cs := name.data
  let tl := (cs.reverse.takeWhile (fun c => c ≠ '.')).reverse
  if tl.length = cs.length then ""
  else
    let i := cs.length - tl.length - 1
    if 0 < i ∧ i < cs.length - 1 then String.mk ('.' :: tl) else ""

/-- Python `s.endswith(t)`. -/
def pyEndsWith (s t : String) : Bool :=
  t.data.length ≤ s.data.length && s.data.drop (s.data.length - t.data.length) == t.data

/-- The extension test of `is_yaml_file`: `suffix.lower() in ('.yaml', '.yml')`. -/
def hasYamlSuffix (name : String) : Bool :=
  let s := pyLower (pySuffix name)
  s = ".yaml" || s = ".yml"

/-- Does `p` start with the components `d`? -/
def pathStarts : FPath → FPath → Bool
  | [], _ => true
  | _ :: _, [] => false
  | a :: as, b :: bs => a == b && pathStarts as bs

/-- Is `p` strictly below directory `d`? -/
def pathUnder (d p : FPath) : Bool := pathStarts d p && !(p == d)

/-- Lexicographic comparison of paths by components, matching `pathlib`
path ordering (comparison of the parts tuples). -/
def pathLt : FPath → FPath → Bool
  | [], [] => false
  | [], _ :: _ => true
  | _ :: _, [] => false
  | a :: as, b :: bs => if a = b then pathLt as bs else decide (a < b)

/-- Non-strict path comparison. -/
def pathLe (p q : FPath) : Bool := pathLt p q || p == q

/-- Stable insertion into a sorted list. -/
def insertSorted (x : FPath) : List FPath → List FPath
  | [] => [x]
  | y :: rest => if pathLe x y then x :: y :: rest else y :: insertSorted x rest

/-- Stable insertion sort by `pathLe`.  The collected paths are distinct,
so any correct sort produces the same list as Python's `sort`. -/
def sortPaths (l : List FPath) : List FPath := l.foldr insertSorted []

/-- `collect_yaml_files(directory)` (lines 93-101): every file with a
recognized extension strictly below the directory, in sorted order.  The
Python walks `sorted(directory.iterdir())` recursively and then sorts the
flattened result by full path; since that final sort totally orders the
(distinct) collected paths, the intermediate per-directory ordering does
not affect the output, and the walk collects exactly the yaml files
below the directory. -/
def collect_yaml_files (fs : FS) (directory : FPath) : List FPath :=
  sortPaths ((fs.files.filter
    (fun e => pathUnder directory e.1 && hasYamlSuffix (lastComponent e.1))).map (fun e => e.1))

/-- `resolve_include_targets(reference, base_path)` (lines 104-128): an
empty reference raises `ValueError`; the candidate path is resolved
relative to the referencing file's directory unless absolute; an
existing directory is collected recursively, an existing yaml file is
returned alone; otherwise, when the candidate lacks a yaml extension,
probe `.yaml` then `.yml`; otherwise `FileNotFoundError`. -/
def resolve_include_targets (fs : FS) (reference : String) (basePath : FPath) :
    Except PyExc (List FPath) :=
  let ref := pyStrip reference
  if ref = "" then .error .valueError
  else
    let candidate : FPath :=
      if refIsAbsolute ref then refToComponents ref
      else normalizePath (pathParent basePath ++ refToComponents ref)
    if isDirFS fs candidate then .ok (collect_yaml_files fs candidate)
    else if (lookupFile fs candidate).isSome && hasYamlSuffix (lastComponent candidate) then
      .ok [candidate]
    else if hasYamlSuffix (lastComponent candidate) then .error .fileNotFound
    else
      let extend := fun (ext : String) =>
        (pathParent candidate) ++ [lastComponent candidate ++ ext]
      let probe := fun (ext : String) =>
        let extended := extend ext
        if isDirFS fs extended then some (collect_yaml_files fs extended)
        else if (lookupFile fs extended).isSome && hasYamlSuffix (lastComponent extended) then
          some [extended]
        else none
      match probe ".yaml" with
      | some r => .ok r
      | none =>
        match probe ".yml" with
        | some r => .ok r
        | none => .error .fileNotFound

/-- Iteration over the value popped from `includes` (line 181 and the
`for include_ref in includes` loop): a falsy value iterates as the empty
sequence (`or []`); a list iterates over its items; a string iterates
over its characters; a dict iterates over its keys; any other truthy
value raises `TypeError`. -/
def iterIncludes : Option Value → Except PyExc (List Value)
  | none => .ok []
  | some v =>
    if pyTruthy v then
      match v with
      | .list xs => .ok xs
      | .str s => .ok (s.data.map (fun c => Value.str (String.mk [c])))
      | .dict m => .ok (m.map (fun kv => Value.str kv.1))
      | _ => .error .typeError
    else .ok []

/-- The `for include_path in targets` loop of `load_profile_tree`
(lines 188-191), with the recursive load passed in as `rec`: a target
that no longer exists raises `FileNotFoundError`; otherwise its tree is
loaded recursively and merged over the running combined tree. -/
def processTargets (fs : FS) (rec : FPath → List FPath → Except PyExc (Dict × List FPath)) :
    List FPath → Dict → List FPath → Except PyExc (Dict × List FPath)
  | [], combined, visited => .ok (combined, visited)
  | t :: rest, combined, visited =>
    if existsFS fs t then
      match rec t visited with
      | .error e => .error e
      | .ok (sub, visited') =>
        match merge_configs combined sub with
        | none => .error .typeError
        | some m => processTargets fs rec rest m visited'
    else .error .fileNotFound

/-- The `for include_ref in includes` loop of `load_profile_tree`
(lines 184-191): entries that are not strings or strip to empty are
skipped; each remaining reference is resolved and its targets folded in
order. -/
def processIncludes (fs : FS) (rec : FPath → List FPath → Except PyExc (Dict × List FPath))
    (resolved : FPath) :
    List Value → Dict → List FPath → Except PyExc (Dict × List FPath)
  | [], combined, visited => .ok (combined, visited)
  | incV :: rest, combined, visited =>
    match incV with
    | Value.str s =>
      if pyStrip s = "" then processIncludes fs rec resolved rest combined visited
      else
        match resolve_include_targets fs s resolved with
        | .error e => .error e
        | .ok targets =>
          match processTargets fs rec targets combined visited with
          | .error e => .error e
          | .ok (c', v') => processIncludes fs rec resolved rest c' v'
    | _ => processIncludes fs rec resolved rest combined visited

/-- `load_profile_tree(profile_path, visited)` (lines 171-194).  The
visited set is threaded as a list of resolved paths; the fuel bounds the
include-recursion depth and any fuel above the number of files in the
filesystem is sufficient.  Opening a missing path raises
`FileNotFoundError`; opening a directory raises `IsADirectoryError`
(`typeError` here); a parse failure raises `yaml.YAMLError`; a truthy
non-mapping document makes `data.pop('includes', [])` raise an uncaught
`TypeError`/`AttributeError` (`typeError` here). -/
def load_profile_tree (fs : FS) : Nat → FPath → List FPath → Except PyExc (Dict × List FPath)
  | 0, _, _ => .error .outOfFuel
  | fuel + 1, profilePath, visited =>
    let resolved := normalizePath profilePath
    if resolved ∈ visited then .ok ([], visited)
    else
      let visited' := resolved :: visited
      if isDirFS fs resolved then .error .typeError
      else
        match lookupFile fs resolved with
        | none => .error .fileNotFound
        | some .bad => .error .yamlError
        | some (.parsed doc) =>
          let data := if pyTruthy doc then doc else Value.dict []
          match data with
          | Value.dict entries =>
            match iterIncludes (alistGet entries "includes") with
            | .error e => .error e
            | .ok incs =>
              let body := alistPop entries "includes"
              match processIncludes fs (load_profile_tree fs fuel) resolved incs [] visited' with
              | .error e => .error e
              | .ok (combined, visited'') =>
                match merge_configs combined body with
                | none => .error .typeError
                | some m => .ok (m, visited'')
          | _ => .error .typeError

/-- `resolve_profile_path(profile)` (lines 80-86): an empty name raises
`ValueError`; a recognized extension is appended when missing; the
result is resolved under the profiles directory (an absolute name
replaces it, as `Path./` does). -/
def resolve_profile_path (profilesDir : FPath) (profile : String) : Except PyExc FPath :=
  let name := pyStrip profile
  if name = "" then .error .valueError
  else
    let name' := if pyEndsWith (pyLower name) ".yaml" || pyEndsWith (pyLower name) ".yml"
      then name else name ++ ".yaml"
    if refIsAbsolute name' then .ok (normalizePath (refToComponents name'))
    else .ok (normalizePath (profilesDir ++ refToComponents name'))

/-- The `for profile in profiles` loop inside the `try` of `load_config`
(lines 209-213): resolve each profile path, require it to exist, load
its tree and merge it over the running config, sharing one visited
set. -/
def loadProfilesLoop (fs : FS) (profilesDir : FPath) (fuel : Nat) :
    List String → Dict → List FPath → Except PyExc Dict
  | [], config, _ => .ok config
  | profile :: rest, config, visited =>
    match resolve_profile_path profilesDir profile with
    | .error e => .error e
    | .ok profilePath =>
      if existsFS fs profilePath then
        match load_profile_tree fs fuel profilePath visited with
        | .error e => .error e
        | .ok (tree, visited') =>
          match merge_configs config tree with
          | none => .error .typeError
          | some cfg => loadProfilesLoop fs profilesDir fuel rest cfg visited'
      else .error .fileNotFound

/-- `load_config()` (lines 197-218), parameterized by the filesystem,
the profiles directory and the active profile list
(`ensure_bundled_files` seeds default files and is treated as already
reflected in `fs`; `resolve_profiles` supplies `profiles`).  Only
`FileNotFoundError` and `yaml.YAMLError` are converted to the `None`
sentinel; every other exception propagates. -/
def load_config (fs : FS) (profilesDir : FPath) (profiles : List String) (fuel : Nat) :
    Except PyExc (Option Dict) :=
  if profiles.isEmpty then .ok none
  else
    match loadProfilesLoop fs profilesDir fuel profiles [] [] with
    | .error .fileNotFound => .ok none
    | .error .yamlError => .ok none
    | .error e => .error e
    | .ok config => .ok (some (normalize_directives config))

/-- The file paths of the filesystem; recursion of `load_profile_tree`
only descends into paths present here. -/
def fsFilePaths (fs : FS) : List FPath := fs.files.map (fun e => e.1)

/-- The number of filesystem file paths not yet visited: the termination
measure of `load_profile_tree`'s include recursion, and a bound on the
fuel it needs. -/
def newCount (fs : FS) (visited : List FPath) : Nat :=
  ((fsFilePaths fs).filter (fun p => decide (p ∉ visited))).length

/-! ## Analysis vocabulary

Specification-side notions used to state properties of the merge: which
canonical keys a directives-overlay entry writes or deletes, which entry
wins, and Python's structural (`==`) equality. -/

/-- Does the overlay entry `(raw, d)` write or delete the key `k`?  A
null directive pops `raw` itself and every expanded key; any other
directive assigns every expanded key. -/
def touches (raw : String) (d : Value) (k : String) : Bool :=
  match d with
  | Value.null => k == raw || (expand_flag_keys raw d).contains k
  | _ => (expand_flag_keys raw d).contains k

/-- The value the entry `(raw, d)` leaves under a key it touches:
deletion for null, the cleaned body for a mapping, the raw value
otherwise. -/
def entryOutcome (_raw : String) (d : Value) : Option Value :=
  match d with
  | Value.null => none
  | Value.dict dd => some (Value.dict (clean_directive_config dd))
  | other => some other

/-- The outcome, for key `k`, of the last entry of the directives
overlay that touches `k` (`none` if no entry touches it). -/
def lastOutcome (dOv : Dict) (k : String) : Option (Option Value) :=
  dOv.foldl (fun acc fd =>
    if touches fd.1 fd.2 k then some (entryOutcome fd.1 fd.2) else acc) none

/-- Python structural equality `v == w` (fuelled; `valueSize v + 1` is
always sufficient): dicts compare by size and per-key equality,
irrespective of insertion order; `True == 1` and `False == 0` as in
Python. -/
def pyEqF : Nat → Value → Value → Bool
  | 0, _, _ => false
  | f + 1, v, w =>
    match v, w with
    | .null, .null => true
    | .bool a, .bool b => a == b
    | .bool a, .int n => (if a then (1 : Int) else 0) == n
    | .int n, .bool b => n == (if b then (1 : Int) else 0)
    | .int a, .int b => a == b
    | .str a, .str b => a == b
    | .list xs, .list ys =>
        xs.length == ys.length &&
        (xs.zip ys).all (fun pr => pyEqF f pr.1 pr.2)
    | .dict m1, .dict m2 =>
        m1.length == m2.length &&
        m1.all (fun kv =>
          match alistGet m2 kv.1 with
          | some w2 => pyEqF f kv.2 w2
          | none => false)
    | _, _ => false

/-- Python structural equality `v == w`. -/
def pyEq (v w : Value) : Bool := pyEqF (valueSize v + 1) v w

/-- Is this directives-overlay entry stable under merging, i.e. does the
directives loop rewrite it to itself?  Its key must expand to exactly
itself, it must not be null (null deletes), and a mapping body must
carry no alias metadata and have unique field names. -/
def directiveStable (fd : String × Value) : Bool :=
  match fd.2 with
  | Value.null => false
  | Value.dict dd =>
      expand_flag_keys fd.1 fd.2 == [fd.1] &&
      decide ((dd.map (fun kv => kv.1)).Nodup) &&
      (alistGet dd "aliases").isNone && (alistGet dd "variations").isNone
  | _ => expand_flag_keys fd.1 fd.2 == [fd.1]

/-- Is the tree `m` left literally equal to itself by
`merge_configs({}, m)`?  Requires, recursively: unique keys (as Python
dicts guarantee), no null values (null deletes the key), and a
`directives` key, when present, bound to a dict of stable entries and
placed first (the merge rebuilds the `directives` entry before the
generic loop runs, so it always ends up first; Python dict equality
ignores that order, literal equality does not).  The fuel bounds the
nesting depth; `entsSize m + 1` is always sufficient. -/
def mergeStableF : Nat → Dict → Bool
  | 0, _ => false
  | f + 1, m =>
      decide ((m.map (fun kv => kv.1)).Nodup) &&
      (match m with
       | [] => true
       | kv :: _ => kv.1 == "directives" || m.all (fun kv2 => kv2.1 != "directives")) &&
      m.all (fun kv =>
        if kv.1 = "directives" then
          match kv.2 with
          | Value.dict dOv =>
              decide ((dOv.map (fun fd => fd.1)).Nodup) && dOv.all directiveStable
          | _ => false
        else
          match kv.2 with
          | Value.null => false
          | Value.dict m2 => mergeStableF f m2
          | _ => true)

/-- `mergeStableF` at its sufficient fuel. -/
def mergeStable (m : Dict) : Bool := mergeStableF (entsSize m + 1) m

/-! ## Identity-labelled model (object aliasing and mutation)

To settle claims about mutation and aliasing, values are re-modelled
with every mutable Python object (list or dict) carrying its identity
(`id`).  `copy.deepcopy` allocates fresh identities from a counter; each
Python statement that mutates a dict appends the mutated object's
identity to a log.  A heap is unnecessary because the engine only ever
mutates objects that are part of the value being built. -/

/-- A value whose mutable nodes carry object identities. -/
inductive IVal where
  | null : IVal
  | bool (b : Bool) : IVal
  | int (n : Int) : IVal
  | str (s : String) : IVal
  | list (id : Nat) (xs : List IVal) : IVal
  | dict (id : Nat) (m : List (String × IVal)) : IVal

/-- An identity-labelled Python dict object: its identity and entries. -/
abbrev IDictObj := Nat × List (String × IVal)

mutual
/-- All object identities occurring in a value. -/
def idsV : IVal → List Nat
  | .null => []
  | .bool _ => []
  | .int _ => []
  | .str _ => []
  | .list i xs => i :: idsL xs
  | .dict i m => i :: idsE m
def idsL : List IVal → List Nat
  | [] => []
  | v :: rest => idsV v ++ idsL rest
def idsE : List (String × IVal) → List Nat
  | [] => []
  | kv :: rest => idsV kv.2 ++ idsE rest
end

mutual
/-- `copy.deepcopy`: structurally copy a value, drawing fresh identities
for every mutable node from the counter. -/
def icopyV : IVal → Nat → IVal × Nat
  | .null, c => (.null, c)
  | .bool b, c => (.bool b, c)
  | .int n, c => (.int n, c)
  | .str s, c => (.str s, c)
  | .list _ xs, c => let r := icopyL xs (c + 1); (.list c r.1, r.2)
  | .dict _ m, c => let r := icopyE m (c + 1); (.dict c r.1, r.2)
def icopyL : List IVal → Nat → List IVal × Nat
  | [], c => ([], c)
  | v :: rest, c =>
      let r := icopyV v c
      let r2 := icopyL rest r.2
      (r.1 :: r2.1, r2.2)
def icopyE : List (String × IVal) → Nat → List (String × IVal) × Nat
  | [], c => ([], c)
  | kv :: rest, c =>
      let r := icopyV kv.2 c
      let r2 := icopyE rest r.2
      ((kv.1, r.1) :: r2.1, r2.2)
end

/-- `d.get(key)` on identity-labelled entries. -/
def iGet : List (String × IVal) → String → Option IVal
  | [], _ => none
  | (k, v) :: rest, key => if k = key then some v else iGet rest key

/-- `d[key] = val` on identity-labelled entries. -/
def iSet : List (String × IVal) → String → IVal → List (String × IVal)
  | [], key, val => [(key, val)]
  | (k, v) :: rest, key, val =>
      if k = key then (k, val) :: rest else (k, v) :: iSet rest key val

/-- `d.pop(key, None)` on identity-labelled entries. -/
def iPop : List (String × IVal) → String → List (String × IVal)
  | [], _ => []
  | (k, v) :: rest, key => if k = key then rest else (k, v) :: iPop rest key

/-- `expand_flag_keys` over identity-labelled directives (identical to
`expand_flag_keys`; identities play no role in key expansion). -/
def iexpand (raw_key : String) (directive : IVal) : List String :=
  let keys := (findFlags raw_key).foldl addStripped []
  let keys := if keys.isEmpty then
      (splitOnSeps raw_key.data).foldl
        (fun ks part => addStripped ks (String.mk part)) keys
    else keys
  match directive with
  | .dict _ dd =>
      ["aliases", "variations"].foldl (fun ks field =>
        match iGet dd field with
        | some (.list _ xs) =>
            xs.foldl (fun ks a =>
              match a with
              | .str s => addStripped ks s
              | _ => ks) ks
        | _ => ks) keys
  | _ => keys

/-- One field of `clean_directive_config` in the identity model: skip
the alias metadata, otherwise deep-copy the field value into the fresh
dict `cid`, logging the assignment as a mutation of `cid`. -/
def icleanStep (cid : Nat) (acc : List (String × IVal) × Nat × List Nat)
    (kv : String × IVal) : List (String × IVal) × Nat × List Nat :=
  let (ents, c, log) := acc
  if kv.1 = "aliases" || kv.1 = "variations" then (ents, c, log)
  else
    let cp := icopyV kv.2 c
    (iSet ents kv.1 cp.1, cp.2, log ++ [cid])

/-- `clean_directive_config` in the identity model: allocate a fresh
dict (identity `c`), deep-copy every kept field value into it, and log
each assignment as a mutation of the fresh dict. -/
def iclean (dd : List (String × IVal)) (c : Nat) (log : List Nat) :
    IDictObj × Nat × List Nat :=
  let cid := c
  let folded := dd.foldl (icleanStep cid) (([] : List (String × IVal)), c + 1, log)
  ((cid, folded.1), folded.2.1, folded.2.2)

/-- Assign a fresh deep copy of the cleaned mapping `cl` under one
canonical key, logging a mutation of the directives dict `dirsId`. -/
def iassignDict (dirsId : Nat) (cl : IDictObj)
    (acc : List (String × IVal) × Nat × List Nat) (k : String) :
    List (String × IVal) × Nat × List Nat :=
  let (dirs, c, log) := acc
  let cp := icopyV (IVal.dict cl.1 cl.2) c
  (iSet dirs k cp.1, cp.2, log ++ [dirsId])

/-- Assign the scalar or list directive `other` under one canonical key
BY REFERENCE (line 153 of the source), logging a mutation of the
directives dict `dirsId`. -/
def iassignRef (dirsId : Nat) (other : IVal)
    (acc : List (String × IVal) × Nat × List Nat) (k : String) :
    List (String × IVal) × Nat × List Nat :=
  let (dirs, c, log) := acc
  (iSet dirs k other, c, log ++ [dirsId])

/-- One entry of the directives loop of `merge_configs` in the identity
model: a null directive pops the raw and expanded keys; a mapping is
cleaned once and deep-copied per key; anything else is assigned by
reference. -/
def iapplyEntry (dirsId : Nat) (acc : List (String × IVal) × Nat × List Nat)
    (fd : String × IVal) : List (String × IVal) × Nat × List Nat :=
  let (dirs, c, log) := acc
  let keys := iexpand fd.1 fd.2
  match fd.2 with
  | IVal.null =>
      (keys.foldl (fun d k => iPop d k) (iPop dirs fd.1), c, log ++ [dirsId])
  | IVal.dict _ dd =>
      let cl := iclean dd c log
      keys.foldl (iassignDict dirsId cl.1) (dirs, cl.2.1, cl.2.2)
  | other => keys.foldl (iassignRef dirsId other) (dirs, c, log)

/-- The directives loop of `merge_configs` in the identity model,
mutating the dict object with identity `dirsId` and entries `dirs`. -/
def iapplyDirectives (dirsId : Nat) (dOv : List (String × IVal))
    (dirs : List (String × IVal)) (c : Nat) (log : List Nat) :
    List (String × IVal) × Nat × List Nat :=
  dOv.foldl (iapplyEntry dirsId) (dirs, c, log)

/-- The generic top-level loop of `merge_configs` in the identity model,
mutating the result object with identity `resultId`; `rec` is the
recursive merge. -/
def igenericLoop (resultId : Nat)
    (rec : IDictObj → IDictObj → Nat → List Nat →
           Option IDictObj × Nat × List Nat) :
    List (String × IVal) → List (String × IVal) → Nat → List Nat →
    Option (List (String × IVal)) × Nat × List Nat
  | rEnts, [], c, log => (some rEnts, c, log)
  | rEnts, (k, v) :: rest, c, log =>
    if k = "directives" then igenericLoop resultId rec rEnts rest c log
    else
      match v with
      | IVal.null => igenericLoop resultId rec (iPop rEnts k) rest c (log ++ [resultId])
      | IVal.dict vid vm =>
        let excur : IDictObj × Nat :=
          match iGet rEnts k with
          | some (IVal.dict eid em) => ((eid, em), c)
          | _ => ((c, []), c + 1)
        match rec excur.1 (vid, vm) excur.2 log with
        | (none, c2, log2) => (none, c2, log2)
        | (some md, c2, log2) =>
            igenericLoop resultId rec (iSet rEnts k (IVal.dict md.1 md.2)) rest c2
              (log2 ++ [resultId])
      | other =>
        let cp := icopyV other c
        igenericLoop resultId rec (iSet rEnts k cp.1) rest cp.2 (log ++ [resultId])

/-- `merge_configs(base, overlay)` in the identity model (fuelled on the
overlay's nesting depth).  `result = copy.deepcopy(base)` becomes a
fresh dict (identity `c`) with freshly copied entries; `setdefault`
inserting a fresh `directives` dict logs a mutation of the result;
`none` is the uncaught `TypeError` crash of a non-dict `directives`
value in the result meeting a nonempty directives overlay. -/
def imergeF : Nat → IDictObj → IDictObj → Nat → List Nat →
    Option IDictObj × Nat × List Nat
  | 0, _, _, c, log => (none, c, log)
  | fuel + 1, base, overlay, c, log =>
    let resultId := c
    let cp := icopyE base.2 (c + 1)
    let rEnts := cp.1
    let c1 := cp.2
    let step1 : Option (List (String × IVal)) × Nat × List Nat :=
      match iGet overlay.2 "directives" with
      | some (IVal.dict _ dOv) =>
        match iGet rEnts "directives" with
        | some (IVal.dict dId dEnts) =>
            let ap := iapplyDirectives dId dOv dEnts c1 log
            (some (iSet rEnts "directives" (IVal.dict dId ap.1)), ap.2.1, ap.2.2)
        | some _ =>
            if dOv.isEmpty then (some rEnts, c1, log) else (none, c1, log)
        | none =>
            let nid := c1
            let ap := iapplyDirectives nid dOv [] (c1 + 1) (log ++ [resultId])
            (some (rEnts ++ [("directives", IVal.dict nid ap.1)]), ap.2.1, ap.2.2)
      | _ => (some rEnts, c1, log)
    match step1 with
    | (none, c2, log2) => (none, c2, log2)
    | (some r1, c2, log2) =>
      match igenericLoop resultId (imergeF fuel) r1 overlay.2 c2 log2 with
      | (none, c3, log3) => (none, c3, log3)
      | (some r2, c3, log3) => (some (resultId, r2), c3, log3)

/-! ## Concrete filesystem fixtures used by witnesses and counterexamples -/

/-- A profiles dir `/h` with `a.yaml` parsing to a truthy non-mapping
document (a list) and no `b.yaml`. -/
def fsListDoc : FS :=
  { files := [(["h", "a.yaml"], Doc.parsed (Value.list [Value.int 1]))]
    dirs := [["h"]] }

/-- A profiles dir `/h` with `claude.yaml` parsing to a truthy string. -/
def fsStrDoc : FS :=
  { files := [(["h", "claude.yaml"], Doc.parsed (Value.str "hello"))]
    dirs := [["h"]] }

/-- A profiles dir `/h` with `claude.yaml` parsing to null. -/
def fsNullDoc : FS :=
  { files := [(["h", "claude.yaml"], Doc.parsed Value.null)]
    dirs := [["h"]] }

/-- A profiles dir `/h` with `claude.yaml` parsing to the empty string
(a falsy scalar). -/
def fsEmptyStrDoc : FS :=
  { files := [(["h", "claude.yaml"], Doc.parsed (Value.str ""))]
    dirs := [["h"]] }

/-- A profiles dir `/h` with `claude.yaml` binding the non-canonical raw
directive key `foo`. -/
def fsFooKey : FS :=
  { files := [(["h", "claude.yaml"],
      Doc.parsed (Value.dict [("directives", Value.dict [("foo", Value.int 1)])]))]
    dirs := [["h"]] }

/-- A profiles dir `/h` with `a.yaml` whose `includes` list holds only a
whitespace string. -/
def fsBlankInclude : FS :=
  { files := [(["h", "a.yaml"],
      Doc.parsed (Value.dict [("includes", Value.list [Value.str "   "]),
                              ("x", Value.int 1)]))]
    dirs := [["h"]] }

/-- A profiles dir `/h` with two files including each other (an include
cycle). -/
def fsCycle : FS :=
  { files := [
      (["h", "a.yaml"],
        Doc.parsed (Value.dict [("includes", Value.list [Value.str "b.yaml"]),
                                ("x", Value.int 1)])),
      (["h", "b.yaml"],
        Doc.parsed (Value.dict [("includes", Value.list [Value.str "a.yaml"]),
                                ("y", Value.int 2)]))]
    dirs := [["h"]] }

/-- A profiles dir `/h` where `main.yaml` includes `inc.yaml` and both
bind the canonical directive key `--x`. -/
def fsOverride : FS :=
  { files := [
      (["h", "main.yaml"],
        Doc.parsed (Value.dict [("includes", Value.list [Value.str "inc.yaml"]),
          ("directives", Value.dict [("--x", Value.dict [("foo", Value.int 2)])])])),
      (["h", "inc.yaml"],
        Doc.parsed (Value.dict [
          ("directives", Value.dict [("--x", Value.dict [("foo", Value.int 1)])])]))]
    dirs := [["h"]] }

/-- The alias fan-out overlay of the spec's example:
`{directives: {"--x, --y": {aliases: ["--z"], foo: 1}}}`. -/
def overlayC3 : Dict :=
  [("directives", Value.dict [("--x, --y",
    Value.dict [("aliases", Value.list [Value.str "--z"]), ("foo", Value.int 1)])])]

/-- The directive body of `overlayC3`. -/
def ddC3 : Dict := [("aliases", Value.list [Value.str "--z"]), ("foo", Value.int 1)]

/-- The result of `merge_configs({}, overlayC3)`. -/
def resC3 : Dict :=
  [("directives", Value.dict [
    ("--x", Value.dict [("foo", Value.int 1)]),
    ("--y", Value.dict [("foo", Value.int 1)]),
    ("--z", Value.dict [("foo", Value.int 1)])])]

/-- The base of the spec's directive-deletion example:
`{directives: {"--x": {foo: 1}}}`. -/
def baseC6 : Dict :=
  [("directives", Value.dict [("--x", Value.dict [("foo", Value.int 1)])])]

/-- The overlay of the spec's directive-deletion example:
`{directives: {"--x": null}}`. -/
def overlayC6 : Dict := [("directives", Value.dict [("--x", Value.null)])]

/-- A merge-stable tree: unique keys, `directives` first, no nulls, no
alias metadata, canonical directive keys. -/
def stableA : Dict :=
  [("directives", Value.dict [("--x", Value.dict [("on", Value.str "go")])]),
   ("a", Value.int 1)]

/-! # Theorems -/

/-! ## Dictionary lemmas -/

theorem alistGet_set_eq (d : Dict) (k : String) (v : Value) :
    alistGet (alistSet d k v) k = some v := by
  induction d with
  | nil => simp [alistSet, alistGet]
  | cons kv rest ih =>
    obtain ⟨k', v'⟩ := kv
    by_cases h : k' = k
    · simp [alistSet, alistGet, h]
    · simp [alistSet, alistGet, h, ih]

theorem alistGet_set_ne (d : Dict) (k j : String) (v : Value) (h : j ≠ k) :
    alistGet (alistSet d k v) j = alistGet d j := by
  have hkj : ¬ (k = j) := fun hh => h hh.symm
  induction d with
  | nil => simp [alistSet, alistGet, hkj]
  | cons kv rest ih =>
    obtain ⟨k', v'⟩ := kv
    by_cases h2 : k' = k
    · simp [alistSet, alistGet, h2, hkj]
    · by_cases h3 : k' = j <;> simp [alistSet, alistGet, h2, h3, hkj, h, ih]

theorem alistGet_pop_ne (d : Dict) (k j : String) (h : j ≠ k) :
    alistGet (alistPop d k) j = alistGet d j := by
  have hkj : ¬ (k = j) := fun hh => h hh.symm
  induction d with
  | nil => simp [alistPop]
  | cons kv rest ih =>
    obtain ⟨k', v'⟩ := kv
    by_cases h2 : k' = k
    · simp [alistPop, alistGet, h2, hkj]
    · by_cases h3 : k' = j <;> simp [alistPop, alistGet, h2, h3, hkj, h, ih]

theorem alistGet_eq_none_of_not_mem (d : Dict) (k : String)
    (h : k ∉ d.map (fun kv => kv.1)) : alistGet d k = none := by
  induction d with
  | nil => rfl
  | cons kv rest ih =>
    simp only [List.map_cons, List.mem_cons, not_or] at h
    obtain ⟨k', v'⟩ := kv
    simp only [alistGet]
    rw [if_neg (fun hh => h.1 hh.symm)]
    exact ih h.2

theorem alistGet_some_mem (d : Dict) (k : String) (v : Value)
    (h : alistGet d k = some v) : (k, v) ∈ d := by
  induction d with
  | nil => exact absurd h (by simp [alistGet])
  | cons kv rest ih =>
    obtain ⟨k', v'⟩ := kv
    by_cases h2 : k' = k
    · subst h2
      simp only [alistGet, if_pos rfl] at h
      have : v' = v := by injection h
      subst this
      exact List.mem_cons_self _ _
    · simp only [alistGet, if_neg h2] at h
      exact List.mem_cons_of_mem _ (ih h)

theorem alistPop_sublist (d : Dict) (k : String) : (alistPop d k).Sublist d := by
  induction d with
  | nil => simp [alistPop]
  | cons kv rest ih =>
    obtain ⟨k', v'⟩ := kv
    by_cases h2 : k' = k
    · simp only [alistPop, if_pos h2]
      exact List.sublist_cons_self _ _
    · simp only [alistPop, if_neg h2]
      exact ih.cons₂ (k', v')

theorem alistPop_keys_nodup (d : Dict) (k : String)
    (h : (d.map (fun kv => kv.1)).Nodup) : ((alistPop d k).map (fun kv => kv.1)).Nodup :=
  h.sublist ((alistPop_sublist d k).map _)

theorem mem_keys_alistSet (d : Dict) (k j : String) (v : Value)
    (h : j ∈ (alistSet d k v).map (fun kv => kv.1)) :
    j ∈ d.map (fun kv => kv.1) ∨ j = k := by
  induction d with
  | nil =>
    simp only [alistSet, List.map_cons, List.map_nil, List.mem_singleton] at h
    exact Or.inr h
  | cons kv rest ih =>
    obtain ⟨k', v'⟩ := kv
    by_cases h2 : k' = k
    · simp only [alistSet, if_pos h2, List.map_cons, List.mem_cons] at h
      simp only [List.map_cons, List.mem_cons]
      rcases h with h | h
      · exact Or.inl (Or.inl h)
      · exact Or.inl (Or.inr h)
    · simp only [alistSet, if_neg h2, List.map_cons, List.mem_cons] at h
      simp only [List.map_cons, List.mem_cons]
      rcases h with h | h
      · exact Or.inl (Or.inl h)
      · rcases ih h with h | h
        · exact Or.inl (Or.inr h)
        · exact Or.inr h

theorem alistSet_keys_nodup (d : Dict) (k : String) (v : Value)
    (h : (d.map (fun kv => kv.1)).Nodup) : ((alistSet d k v).map (fun kv => kv.1)).Nodup := by
  induction d with
  | nil => simp [alistSet]
  | cons kv rest ih =>
    obtain ⟨k', v'⟩ := kv
    simp only [List.map_cons, List.nodup_cons] at h
    by_cases h2 : k' = k
    · simpa [alistSet, h2, List.nodup_cons] using h
    · simp only [alistSet, if_neg h2, List.map_cons, List.nodup_cons]
      refine ⟨fun hm => ?_, ih h.2⟩
      rcases mem_keys_alistSet rest k k' v hm with hm | hm
      · exact h.1 hm
      · exact h2 hm

theorem alistGet_pop_self_of_nodup (d : Dict) (k : String)
    (h : (d.map (fun kv => kv.1)).Nodup) : alistGet (alistPop d k) k = none := by
  induction d with
  | nil => rfl
  | cons kv rest ih =>
    obtain ⟨k', v'⟩ := kv
    simp only [List.map_cons, List.nodup_cons] at h
    by_cases h2 : k' = k
    · subst h2
      simp only [alistPop, if_pos rfl]
      exact alistGet_eq_none_of_not_mem rest k' h.1
    · simp only [alistPop, if_neg h2, alistGet, if_neg h2]
      exact ih h.2

theorem alistGet_pop_none (d : Dict) (k j : String) (h : alistGet d k = none) :
    alistGet (alistPop d j) k = none := by
  induction d with
  | nil => rfl
  | cons kv rest ih =>
    obtain ⟨k', v'⟩ := kv
    by_cases h2 : k' = k
    · simp [alistGet, h2] at h
    · simp only [alistGet, if_neg h2] at h
      by_cases h3 : k' = j
      · simpa [alistPop, h3] using h
      · simp only [alistPop, if_neg h3, alistGet, if_neg h2]
        exact ih h

theorem alistSet_of_not_mem (d : Dict) (k : String) (v : Value)
    (h : k ∉ d.map (fun kv => kv.1)) : alistSet d k v = d ++ [(k, v)] := by
  induction d with
  | nil => rfl
  | cons kv rest ih =>
    obtain ⟨k', v'⟩ := kv
    simp only [List.map_cons, List.mem_cons, not_or] at h
    have h2 : ¬ (k' = k) := fun hh => h.1 hh.symm
    simp only [alistSet, if_neg h2, List.cons_append, List.cons.injEq, true_and]
    exact ih h.2

theorem alistGet_append_right (d e : Dict) (k : String) (h : alistGet d k = none) :
    alistGet (d ++ e) k = alistGet e k := by
  induction d with
  | nil => rfl
  | cons kv rest ih =>
    obtain ⟨k', v'⟩ := kv
    by_cases h2 : k' = k
    · simp [alistGet, h2] at h
    · simp only [alistGet, if_neg h2] at h
      simpa only [List.cons_append, alistGet, if_neg h2] using ih h

theorem mem_alistSet (d : Dict) (k : String) (v : Value) (kv : String × Value)
    (h : kv ∈ alistSet d k v) : kv ∈ d ∨ kv.1 = k := by
  induction d with
  | nil =>
    simp only [alistSet, List.mem_singleton] at h
    subst h
    exact Or.inr rfl
  | cons kv2 rest ih =>
    obtain ⟨k', v'⟩ := kv2
    by_cases h2 : k' = k
    · simp only [alistSet, if_pos h2, List.mem_cons] at h
      rcases h with h | h
      · subst h
        exact Or.inr h2
      · exact Or.inl (List.mem_cons_of_mem _ h)
    · simp only [alistSet, if_neg h2, List.mem_cons] at h
      rcases h with h | h
      · subst h
        exact Or.inl (List.mem_cons_self _ _)
      · rcases ih h with h3 | h3
        · exact Or.inl (List.mem_cons_of_mem _ h3)
        · exact Or.inr h3

/-! ## Fold lemmas for the directives loop -/

theorem foldl_pop_get_ne (keys : List String) (d : Dict) (k : String) (h : k ∉ keys) :
    alistGet (keys.foldl (fun d j => alistPop d j) d) k = alistGet d k := by
  induction keys generalizing d with
  | nil => rfl
  | cons j rest ih =>
    simp only [List.mem_cons, not_or] at h
    rw [List.foldl_cons, ih _ h.2, alistGet_pop_ne _ _ _ h.1]

theorem foldl_set_get_ne (keys : List String) (d : Dict) (k : String) (v : Value)
    (h : k ∉ keys) :
    alistGet (keys.foldl (fun d j => alistSet d j v) d) k = alistGet d k := by
  induction keys generalizing d with
  | nil => rfl
  | cons j rest ih =>
    simp only [List.mem_cons, not_or] at h
    rw [List.foldl_cons, ih _ h.2, alistGet_set_ne _ _ _ _ h.1]

theorem foldl_set_get_mem (keys : List String) (d : Dict) (k : String) (v : Value)
    (h : k ∈ keys) :
    alistGet (keys.foldl (fun d j => alistSet d j v) d) k = some v := by
  induction keys generalizing d with
  | nil => exact absurd h (List.not_mem_nil k)
  | cons j rest ih =>
    by_cases h2 : k ∈ rest
    · rw [List.foldl_cons]; exact ih _ h2
    · have hkj : k = j := by
        rcases List.mem_cons.mp h with h | h
        · exact h
        · exact absurd h h2
      subst hkj
      rw [List.foldl_cons, foldl_set_get_ne _ _ _ _ h2, alistGet_set_eq]

theorem foldl_pop_get_none (keys : List String) (d : Dict) (k : String)
    (h : alistGet d k = none) :
    alistGet (keys.foldl (fun d j => alistPop d j) d) k = none := by
  induction keys generalizing d with
  | nil => exact h
  | cons j rest ih =>
    rw [List.foldl_cons]
    exact ih _ (alistGet_pop_none _ _ _ h)

theorem foldl_pop_nodup (keys : List String) (d : Dict)
    (h : (d.map (fun kv => kv.1)).Nodup) :
    ((keys.foldl (fun d j => alistPop d j) d).map (fun kv => kv.1)).Nodup := by
  induction keys generalizing d with
  | nil => exact h
  | cons j rest ih =>
    rw [List.foldl_cons]
    exact ih _ (alistPop_keys_nodup _ _ h)

theorem foldl_pop_get_mem (keys : List String) (d : Dict) (k : String) (hk : k ∈ keys)
    (h : (d.map (fun kv => kv.1)).Nodup) :
    alistGet (keys.foldl (fun d j => alistPop d j) d) k = none := by
  induction keys generalizing d with
  | nil => exact absurd hk (List.not_mem_nil k)
  | cons j rest ih =>
    rw [List.foldl_cons]
    by_cases h2 : k = j
    · subst h2
      exact foldl_pop_get_none _ _ _ (alistGet_pop_self_of_nodup _ _ h)
    · have hkr : k ∈ rest := by
        rcases List.mem_cons.mp hk with hh | hh
        · exact absurd hh h2
        · exact hh
      exact ih _ hkr (alistPop_keys_nodup _ _ h)

/-! ## Directives-loop lemmas -/

theorem foldl_set_nodup (keys : List String) (d : Dict) (v : Value)
    (h : (d.map (fun kv => kv.1)).Nodup) :
    ((keys.foldl (fun d j => alistSet d j v) d).map (fun kv => kv.1)).Nodup := by
  induction keys generalizing d with
  | nil => exact h
  | cons j rest ih =>
    rw [List.foldl_cons]
    exact ih _ (alistSet_keys_nodup _ _ _ h)

theorem applyEntry_nodup (d : Dict) (fd : String × Value)
    (h : (d.map (fun kv => kv.1)).Nodup) :
    ((applyEntry d fd).map (fun kv => kv.1)).Nodup := by
  obtain ⟨raw, dv⟩ := fd
  cases dv
  case null => exact foldl_pop_nodup _ _ (alistPop_keys_nodup _ _ h)
  all_goals
    simp only [applyEntry]
    exact foldl_set_nodup _ _ _ h

theorem mem_of_touches_nonnull (raw : String) (dv : Value) (k : String)
    (hnn : dv ≠ Value.null) (ht : touches raw dv k = true) :
    k ∈ expand_flag_keys raw dv := by
  cases dv
  case null => exact absurd rfl hnn
  all_goals simpa [touches] using ht

theorem entryOutcome_none_null (raw : String) (dv : Value)
    (h : entryOutcome raw dv = none) : dv = Value.null := by
  cases dv <;> simp [entryOutcome] at h ⊢

theorem applyEntry_get_untouched (d : Dict) (fd : String × Value) (k : String)
    (h : touches fd.1 fd.2 k = false) :
    alistGet (applyEntry d fd) k = alistGet d k := by
  obtain ⟨raw, dv⟩ := fd
  cases dv
  case null =>
    simp only [touches, Bool.or_eq_false_iff] at h
    have hk : k ≠ raw := by simpa using h.1
    have hm : k ∉ expand_flag_keys raw Value.null := by simpa using h.2
    simp only [applyEntry]
    rw [foldl_pop_get_ne _ _ _ hm, alistGet_pop_ne _ _ _ hk]
  all_goals
    simp only [applyEntry]
    exact foldl_set_get_ne _ _ _ _ (by simpa [touches] using h)

theorem applyEntry_get_assigned (d : Dict) (fd : String × Value) (k : String)
    (hnn : fd.2 ≠ Value.null) (hk : k ∈ expand_flag_keys fd.1 fd.2) :
    alistGet (applyEntry d fd) k = entryOutcome fd.1 fd.2 := by
  obtain ⟨raw, dv⟩ := fd
  cases dv
  case null => exact absurd rfl hnn
  all_goals
    simp only [applyEntry, entryOutcome]
    exact foldl_set_get_mem _ _ _ _ hk

theorem applyEntry_get_deleted (d : Dict) (raw : String) (k : String)
    (hk : k = raw ∨ k ∈ expand_flag_keys raw Value.null)
    (hnd : (d.map (fun kv => kv.1)).Nodup) :
    alistGet (applyEntry d (raw, Value.null)) k = none := by
  simp only [applyEntry]
  rcases hk with hk | hk
  · subst hk
    exact foldl_pop_get_none _ _ _ (alistGet_pop_self_of_nodup _ _ hnd)
  · exact foldl_pop_get_mem _ _ _ hk (alistPop_keys_nodup _ _ hnd)

theorem lastOutcome_acc (dOv : Dict) (k : String) (acc : Option (Option Value)) :
    dOv.foldl
      (fun a fd => if touches fd.1 fd.2 k then some (entryOutcome fd.1 fd.2) else a) acc =
      (lastOutcome dOv k).elim acc some := by
  induction dOv generalizing acc with
  | nil => rfl
  | cons fd rest ih =>
    rw [List.foldl_cons, ih]
    have hR : lastOutcome (fd :: rest) k =
        (lastOutcome rest k).elim
          (if touches fd.1 fd.2 k then some (entryOutcome fd.1 fd.2) else none) some := by
      simp only [lastOutcome]
      rw [List.foldl_cons]
      exact ih _
    rw [hR]
    cases lastOutcome rest k with
    | some o => rfl
    | none => by_cases ht : touches fd.1 fd.2 k <;> simp [ht]

theorem lastOutcome_cons (fd : String × Value) (rest : Dict) (k : String) :
    lastOutcome (fd :: rest) k =
      (lastOutcome rest k).elim
        (if touches fd.1 fd.2 k then some (entryOutcome fd.1 fd.2) else none) some := by
  simp only [lastOutcome]
  rw [List.foldl_cons]
  exact lastOutcome_acc rest k _

theorem applyDirectives_cons (d : Dict) (fd : String × Value) (rest : Dict) :
    applyDirectives d (fd :: rest) = applyDirectives (applyEntry d fd) rest := by
  simp [applyDirectives]

theorem applyDirectives_untouched (dOv : Dict) (d : Dict) (k : String)
    (h : lastOutcome dOv k = none) :
    alistGet (applyDirectives d dOv) k = alistGet d k := by
  induction dOv generalizing d with
  | nil => rfl
  | cons fd rest ih =>
    rw [lastOutcome_cons] at h
    cases hr : lastOutcome rest k with
    | some o => rw [hr] at h; exact absurd h (by simp)
    | none =>
      rw [hr] at h
      simp only [Option.elim] at h
      have ht : touches fd.1 fd.2 k = false := by
        by_cases hh : touches fd.1 fd.2 k
        · rw [if_pos hh] at h; exact absurd h (by simp)
        · simpa using hh
      rw [applyDirectives_cons, ih _ hr, applyEntry_get_untouched _ _ _ ht]

theorem applyDirectives_get_assign (dOv : Dict) (d0 : Dict) (k : String) (dres : Value)
    (h : lastOutcome dOv k = some (some dres)) :
    alistGet (applyDirectives d0 dOv) k = some dres := by
  induction dOv generalizing d0 with
  | nil => exact absurd h (by simp [lastOutcome])
  | cons fd rest ih =>
    rw [lastOutcome_cons] at h
    rw [applyDirectives_cons]
    cases hr : lastOutcome rest k with
    | some o =>
      rw [hr] at h
      simp only [Option.elim] at h
      injection h with h
      subst h
      exact ih _ hr
    | none =>
      rw [hr] at h
      simp only [Option.elim] at h
      by_cases ht : touches fd.1 fd.2 k
      · rw [if_pos ht] at h
        injection h with h
        have hnn : fd.2 ≠ Value.null := by
          intro hnul
          rw [hnul] at h
          simp [entryOutcome] at h
        have hm : k ∈ expand_flag_keys fd.1 fd.2 := mem_of_touches_nonnull _ _ _ hnn ht
        rw [applyDirectives_untouched rest _ k hr,
          applyEntry_get_assigned _ _ _ hnn hm, h]
      · rw [if_neg ht] at h; exact absurd h (by simp)

theorem applyDirectives_get_delete (dOv : Dict) (d0 : Dict) (k : String)
    (hnd : (d0.map (fun kv => kv.1)).Nodup)
    (h : lastOutcome dOv k = some none) :
    alistGet (applyDirectives d0 dOv) k = none := by
  induction dOv generalizing d0 with
  | nil => exact absurd h (by simp [lastOutcome])
  | cons fd rest ih =>
    rw [lastOutcome_cons] at h
    rw [applyDirectives_cons]
    cases hr : lastOutcome rest k with
    | some o =>
      rw [hr] at h
      simp only [Option.elim] at h
      injection h with h
      subst h
      exact ih _ (applyEntry_nodup _ _ hnd) hr
    | none =>
      rw [hr] at h
      simp only [Option.elim] at h
      by_cases ht : touches fd.1 fd.2 k
      · rw [if_pos ht] at h
        injection h with h
        have hnul : fd.2 = Value.null := entryOutcome_none_null _ _ h
        obtain ⟨raw, dv⟩ := fd
        simp only at hnul
        subst hnul
        have hk : k = raw ∨ k ∈ expand_flag_keys raw Value.null := by
          simpa [touches] using ht
        rw [applyDirectives_untouched rest _ k hr, applyEntry_get_deleted _ _ _ hk hnd]
      · rw [if_neg ht] at h; exact absurd h (by simp)

/-! ## Merge structure lemmas -/

theorem merge_generic_get_directives (rec : Dict → Dict → Option Dict)
    (entries result res : Dict)
    (h : merge_generic rec result entries = some res) :
    alistGet res "directives" = alistGet result "directives" := by
  induction entries generalizing result with
  | nil =>
    simp only [merge_generic] at h
    injection h with h
    subst h
    rfl
  | cons kv rest ih =>
    obtain ⟨k, v⟩ := kv
    by_cases hk : k = "directives"
    · simp only [merge_generic, if_pos hk] at h
      exact ih _ h
    · have hkd : ¬ ("directives" = k) := fun hh => hk hh.symm
      simp only [merge_generic, if_neg hk] at h
      cases v with
      | null => rw [ih _ h]; exact alistGet_pop_ne _ _ _ hkd
      | dict m =>
        change (match rec (existingDict result k) m with
          | none => none
          | some merged => merge_generic rec (alistSet result k (Value.dict merged)) rest) =
            some res at h
        cases hrec : rec (existingDict result k) m with
        | none => rw [hrec] at h; exact absurd h (by simp)
        | some merged =>
          rw [hrec] at h
          rw [ih _ h]
          exact alistGet_set_ne _ _ _ _ hkd
      | bool b => rw [ih _ h]; exact alistGet_set_ne _ _ _ _ hkd
      | int n => rw [ih _ h]; exact alistGet_set_ne _ _ _ _ hkd
      | str s => rw [ih _ h]; exact alistGet_set_ne _ _ _ _ hkd
      | list xs => rw [ih _ h]; exact alistGet_set_ne _ _ _ _ hkd

theorem merge_directives_content (base overlay res : Dict) (dOv : Dict)
    (hov : alistGet overlay "directives" = some (Value.dict dOv))
    (hne : dOv ≠ [])
    (hm : merge_configs base overlay = some res) :
    ∃ d0, alistGet res "directives" = some (Value.dict (applyDirectives d0 dOv)) ∧
      (alistGet base "directives" = some (Value.dict d0) ∨
       (alistGet base "directives" = none ∧ d0 = [])) := by
  unfold merge_configs at hm
  simp only [merge_configs_fuel] at hm
  rw [hov] at hm
  cases hb : alistGet base "directives" with
  | none =>
    rw [hb] at hm
    refine ⟨[], ?_, Or.inr ⟨rfl, rfl⟩⟩
    rw [merge_generic_get_directives _ _ _ _ hm, alistGet_append_right _ _ _ hb]
    rfl
  | some dv =>
    rw [hb] at hm
    cases dv with
    | dict d00 =>
      refine ⟨d00, ?_, Or.inl rfl⟩
      rw [merge_generic_get_directives _ _ _ _ hm, alistGet_set_eq]
    | null =>
      cases dOv with
      | nil => exact absurd rfl hne
      | cons fd rest => simp at hm
    | bool b =>
      cases dOv with
      | nil => exact absurd rfl hne
      | cons fd rest => simp at hm
    | int n =>
      cases dOv with
      | nil => exact absurd rfl hne
      | cons fd rest => simp at hm
    | str s =>
      cases dOv with
      | nil => exact absurd rfl hne
      | cons fd rest => simp at hm
    | list xs =>
      cases dOv with
      | nil => exact absurd rfl hne
      | cons fd rest => simp at hm

theorem entsSize_lt_of_mem (k : String) (m o : Dict) (h : (k, Value.dict m) ∈ o) :
    entsSize m < entsSize o := by
  induction o with
  | nil => cases h
  | cons kv rest ih =>
    rcases List.mem_cons.mp h with h | h
    · rw [← h]
      simp only [entsSize, valueSize]
      omega
    · have := ih h
      simp only [entsSize]
      omega

theorem merge_generic_congr (rec1 rec2 : Dict → Dict → Option Dict)
    (entries : Dict)
    (h : ∀ b m, (∃ k, (k, Value.dict m) ∈ entries) → rec1 b m = rec2 b m) :
    ∀ result, merge_generic rec1 result entries = merge_generic rec2 result entries := by
  induction entries with
  | nil => intro result; rfl
  | cons kv rest ih =>
    intro result
    obtain ⟨k, v⟩ := kv
    have hrest : ∀ b m, (∃ k, (k, Value.dict m) ∈ rest) → rec1 b m = rec2 b m :=
      fun b m hex => h b m ⟨hex.choose, List.mem_cons_of_mem _ hex.choose_spec⟩
    by_cases hk : k = "directives"
    · simp only [merge_generic, if_pos hk]
      exact ih hrest _
    · simp only [merge_generic, if_neg hk]
      cases v with
      | null => exact ih hrest _
      | dict m =>
        change (match rec1 (existingDict result k) m with
          | none => none
          | some merged => merge_generic rec1 (alistSet result k (Value.dict merged)) rest) =
          (match rec2 (existingDict result k) m with
          | none => none
          | some merged => merge_generic rec2 (alistSet result k (Value.dict merged)) rest)
        rw [h (existingDict result k) m ⟨k, List.mem_cons_self _ _⟩]
        cases rec2 (existingDict result k) m with
        | none => rfl
        | some merged => exact ih hrest _
      | bool b => exact ih hrest _
      | int n => exact ih hrest _
      | str s => exact ih hrest _
      | list xs => exact ih hrest _

theorem merge_configs_fuel_congr (f1 : Nat) :
    ∀ (f2 : Nat) (base overlay : Dict), entsSize overlay < f1 → entsSize overlay < f2 →
    merge_configs_fuel f1 base overlay = merge_configs_fuel f2 base overlay := by
  induction f1 with
  | zero => intro f2 base overlay h1 h2; omega
  | succ n1 ih =>
    intro f2 base overlay h1 h2
    cases f2 with
    | zero => omega
    | succ n2 =>
      simp only [merge_configs_fuel]
      have hg : ∀ r1, merge_generic (merge_configs_fuel n1) r1 overlay =
          merge_generic (merge_configs_fuel n2) r1 overlay := by
        intro r1
        apply merge_generic_congr
        rintro b m ⟨k, hk⟩
        have hlt := entsSize_lt_of_mem k m overlay hk
        exact ih _ b m (by omega) (by omega)
      cases hov : alistGet overlay "directives" with
      | none => exact hg _
      | some dv =>
        cases dv with
        | dict dOv =>
          cases hb : alistGet base "directives" with
          | none => exact hg _
          | some bv =>
            cases bv with
            | dict d00 => exact hg _
            | null => by_cases he : dOv.isEmpty <;> simp [he, hg]
            | bool b => by_cases he : dOv.isEmpty <;> simp [he, hg]
            | int n => by_cases he : dOv.isEmpty <;> simp [he, hg]
            | str s => by_cases he : dOv.isEmpty <;> simp [he, hg]
            | list xs => by_cases he : dOv.isEmpty <;> simp [he, hg]
        | null => exact hg _
        | bool b => exact hg _
        | int n => exact hg _
        | str s => exact hg _
        | list xs => exact hg _

theorem merge_configs_eq_fuel (f : Nat) (base overlay : Dict)
    (h : entsSize overlay < f) :
    merge_configs base overlay = merge_configs_fuel f base overlay :=
  merge_configs_fuel_congr _ _ _ _ (by omega) h

theorem lastOutcome_foldl_untouched (l : Dict) (k : String)
    (h : ∀ fd ∈ l, touches fd.1 fd.2 k = false) :
    ∀ acc : Option (Option Value),
    l.foldl (fun a fd => if touches fd.1 fd.2 k then some (entryOutcome fd.1 fd.2) else a)
      acc = acc := by
  induction l with
  | nil => intro acc; rfl
  | cons fd rest ih =>
    intro acc
    have ht := h fd (List.mem_cons_self _ _)
    rw [List.foldl_cons]
    simp only [ht, Bool.false_eq_true, if_false]
    exact ih (fun fd2 h2 => h fd2 (List.mem_cons_of_mem _ h2)) acc

theorem lastOutcome_split (pre post : Dict) (raw : String) (dv : Value) (k : String)
    (ht : touches raw dv k = true)
    (hpost : ∀ fd ∈ post, touches fd.1 fd.2 k = false) :
    lastOutcome (pre ++ (raw, dv) :: post) k = some (entryOutcome raw dv) := by
  simp only [lastOutcome]
  rw [List.foldl_append, List.foldl_cons, lastOutcome_foldl_untouched post k hpost]
  simp [ht]

/-- C3: merging an overlay whose directives map binds a compound raw key
to a mapping directive carrying aliases/variations assigns, under every
canonical key derived from the raw key and under every alias/variation
string, the identical cleaned directive body (aliases and variations
removed) — provided no later entry of the overlay's directives map
touches those keys again (a dict binds each raw key once, but a later
raw key could expand to an overlapping canonical key). -/
theorem c3_alias_fanout (base overlay res dOv pre post : Dict) (raw : String) (dd : Dict)
    (hov : alistGet overlay "directives" = some (Value.dict dOv))
    (hsplit : dOv = pre ++ (raw, Value.dict dd) :: post)
    (hlast : ∀ fd ∈ post, ∀ k ∈ expand_flag_keys raw (Value.dict dd),
      touches fd.1 fd.2 k = false)
    (hm : merge_configs base overlay = some res) :
    ∃ rd, alistGet res "directives" = some (Value.dict rd) ∧
      ∀ k ∈ expand_flag_keys raw (Value.dict dd),
        alistGet rd k = some (Value.dict (clean_directive_config dd)) := by
  have hne : dOv ≠ [] := by rw [hsplit]; simp
  obtain ⟨d0, hres, -⟩ := merge_directives_content base overlay res dOv hov hne hm
  refine ⟨applyDirectives d0 dOv, hres, ?_⟩
  intro k hk
  apply applyDirectives_get_assign
  rw [hsplit]
  have ht : touches raw (Value.dict dd) k = true := by simpa [touches] using hk
  rw [lastOutcome_split pre post raw (Value.dict dd) k ht
    (fun fd hfd => hlast fd hfd k hk)]
  rfl

/-- C3 witness: the spec's alias fan-out example, instantiated. -/
theorem c3_alias_fanout_witness :
    merge_configs [] overlayC3 = some resC3 ∧
    (∃ rd, alistGet resC3 "directives" = some (Value.dict rd) ∧
      ∀ k ∈ expand_flag_keys "--x, --y" (Value.dict ddC3),
        alistGet rd k = some (Value.dict (clean_directive_config ddC3))) :=
  ⟨rfl,
    c3_alias_fanout [] overlayC3 resC3
      [("--x, --y", Value.dict ddC3)] [] [] "--x, --y" ddC3
      rfl rfl (by simp) rfl⟩

/-- C6: merging an overlay whose directives map binds a raw key to null
over a base whose directives map binds a canonical key covered by that
raw key removes both the raw key itself and every key expanded from it
from the result's directives map — provided the base's directives map
has unique keys (as a Python dict does) and no later overlay entry
touches those keys again. -/
theorem c6_null_directive_deletes (base overlay res d00 dOv pre post : Dict)
    (raw k0 : String) (v0 : Value)
    (hb : alistGet base "directives" = some (Value.dict d00))
    (hnd : (d00.map (fun kv => kv.1)).Nodup)
    (hbk : alistGet d00 k0 = some v0)
    (_hk0 : k0 = raw ∨ k0 ∈ expand_flag_keys raw Value.null)
    (hov : alistGet overlay "directives" = some (Value.dict dOv))
    (hsplit : dOv = pre ++ (raw, Value.null) :: post)
    (hpost : ∀ fd ∈ post, touches fd.1 fd.2 raw = false ∧
      ∀ k ∈ expand_flag_keys raw Value.null, touches fd.1 fd.2 k = false)
    (hm : merge_configs base overlay = some res) :
    ∃ rd, alistGet res "directives" = some (Value.dict rd) ∧
      alistGet rd raw = none ∧
      ∀ k ∈ expand_flag_keys raw Value.null, alistGet rd k = none := by
  have hne : dOv ≠ [] := by rw [hsplit]; simp
  obtain ⟨d0, hres, hd0⟩ := merge_directives_content base overlay res dOv hov hne hm
  have hd0e : d0 = d00 := by
    rcases hd0 with hd | ⟨hd, _⟩
    · rw [hb] at hd
      injection hd with hd
      injection hd with hd
      exact hd.symm
    · rw [hb] at hd
      cases hd
  subst hd0e
  refine ⟨applyDirectives d0 dOv, hres, ?_, ?_⟩
  · apply applyDirectives_get_delete _ _ _ hnd
    rw [hsplit]
    rw [lastOutcome_split pre post raw Value.null raw (by simp [touches])
      (fun fd hfd => (hpost fd hfd).1)]
    rfl
  · intro k hk
    apply applyDirectives_get_delete _ _ _ hnd
    rw [hsplit]
    rw [lastOutcome_split pre post raw Value.null k (by simp [touches, hk])
      (fun fd hfd => (hpost fd hfd).2 k hk)]
    rfl

/-- C6 witness: the spec's directive-deletion example, instantiated. -/
theorem c6_null_directive_deletes_witness :
    merge_configs baseC6 overlayC6 = some [("directives", Value.dict [])] ∧
    (∃ rd, alistGet [("directives", Value.dict [])] "directives" = some (Value.dict rd) ∧
      alistGet rd "--x" = none ∧
      ∀ k ∈ expand_flag_keys "--x" Value.null, alistGet rd k = none) :=
  ⟨rfl,
    c6_null_directive_deletes baseC6 overlayC6 [("directives", Value.dict [])]
      [("--x", Value.dict [("foo", Value.int 1)])] [("--x", Value.null)] [] []
      "--x" "--x" (Value.dict [("foo", Value.int 1)])
      rfl (by simp) rfl (Or.inl rfl) rfl rfl (by simp) rfl⟩

/-! ## Stability lemmas (C9) -/

theorem alistGet_isSome_of_mem_keys (d : Dict) (k : String)
    (h : k ∈ d.map (fun kv => kv.1)) : (alistGet d k).isSome := by
  induction d with
  | nil => simp at h
  | cons kv rest ih =>
    obtain ⟨k', v'⟩ := kv
    simp only [List.map_cons, List.mem_cons] at h
    by_cases h2 : k' = k
    · simp [alistGet, h2]
    · rcases h with h | h
      · exact absurd h.symm h2
      · simpa [alistGet, h2] using ih h

theorem clean_foldl_append (l : Dict) :
    ∀ acc : Dict, ((acc ++ l).map (fun kv => kv.1)).Nodup →
    (∀ kv ∈ l, ¬ (kv.1 = "aliases") ∧ ¬ (kv.1 = "variations")) →
    l.foldl (fun cleaned kv =>
      if kv.1 = "aliases" || kv.1 = "variations" then cleaned
      else alistSet cleaned kv.1 kv.2) acc = acc ++ l := by
  induction l with
  | nil => intro acc _ _; simp
  | cons kv rest ih =>
    intro acc hnd hal
    have hcond := hal kv (List.mem_cons_self _ _)
    have hkacc : kv.1 ∉ acc.map (fun kv => kv.1) := by
      intro hmem
      simp only [List.map_append, List.map_cons] at hnd
      exact (List.disjoint_of_nodup_append hnd) hmem (List.mem_cons_self _ _)
    rw [List.foldl_cons]
    rw [if_neg (by simp [hcond.1, hcond.2])]
    rw [alistSet_of_not_mem _ _ _ hkacc]
    rw [ih (acc ++ [kv]) (by simpa using hnd)
      (fun kv2 h2 => hal kv2 (List.mem_cons_of_mem _ h2))]
    simp

theorem clean_stable (dd : Dict) (hnd : (dd.map (fun kv => kv.1)).Nodup)
    (ha : alistGet dd "aliases" = none) (hv : alistGet dd "variations" = none) :
    clean_directive_config dd = dd := by
  have hal : ∀ kv ∈ dd, ¬ (kv.1 = "aliases") ∧ ¬ (kv.1 = "variations") := by
    intro kv hkv
    constructor
    · intro he
      have : kv.1 ∈ dd.map (fun kv => kv.1) := List.mem_map_of_mem _ hkv
      rw [he] at this
      have := alistGet_isSome_of_mem_keys _ _ this
      rw [ha] at this
      simp at this
    · intro he
      have : kv.1 ∈ dd.map (fun kv => kv.1) := List.mem_map_of_mem _ hkv
      rw [he] at this
      have := alistGet_isSome_of_mem_keys _ _ this
      rw [hv] at this
      simp at this
  have := clean_foldl_append dd [] (by simpa using hnd) hal
  simpa [clean_directive_config] using this

theorem applyDirectives_stable (dOv : Dict) :
    ∀ acc : Dict, ((acc ++ dOv).map (fun kv => kv.1)).Nodup →
    (∀ fd ∈ dOv, directiveStable fd = true) →
    applyDirectives acc dOv = acc ++ dOv := by
  induction dOv with
  | nil => intro acc _ _; simp [applyDirectives]
  | cons fd rest ih =>
    intro acc hnd hst
    rw [applyDirectives_cons]
    have hfd := hst fd (List.mem_cons_self _ _)
    have hkacc : fd.1 ∉ acc.map (fun kv => kv.1) := by
      intro hmem
      simp only [List.map_append, List.map_cons] at hnd
      exact (List.disjoint_of_nodup_append hnd) hmem (List.mem_cons_self _ _)
    have happ : applyEntry acc fd = acc ++ [fd] := by
      obtain ⟨raw, d⟩ := fd
      cases d with
      | null => simp [directiveStable] at hfd
      | dict dd =>
        rw [directiveStable] at hfd
        simp only [Bool.and_eq_true, beq_iff_eq, decide_eq_true_eq,
          Option.isNone_iff_eq_none] at hfd
        obtain ⟨⟨⟨hexp, hddnd⟩, hda⟩, hdv⟩ := hfd
        simp only [applyEntry]
        rw [hexp, clean_stable dd hddnd hda hdv]
        simp only [List.foldl_cons, List.foldl_nil]
        exact alistSet_of_not_mem _ _ _ hkacc
      | bool b =>
        rw [directiveStable] at hfd
        simp only [beq_iff_eq] at hfd
        simp only [applyEntry]
        rw [hfd]
        simp only [List.foldl_cons, List.foldl_nil]
        exact alistSet_of_not_mem _ _ _ hkacc
      | int n =>
        rw [directiveStable] at hfd
        simp only [beq_iff_eq] at hfd
        simp only [applyEntry]
        rw [hfd]
        simp only [List.foldl_cons, List.foldl_nil]
        exact alistSet_of_not_mem _ _ _ hkacc
      | str s =>
        rw [directiveStable] at hfd
        simp only [beq_iff_eq] at hfd
        simp only [applyEntry]
        rw [hfd]
        simp only [List.foldl_cons, List.foldl_nil]
        exact alistSet_of_not_mem _ _ _ hkacc
      | list xs =>
        rw [directiveStable] at hfd
        simp only [beq_iff_eq] at hfd
        simp only [applyEntry]
        rw [hfd]
        simp only [List.foldl_cons, List.foldl_nil]
        exact alistSet_of_not_mem _ _ _ hkacc
    rw [happ]
    rw [ih (acc ++ [fd]) (by simpa using hnd)
      (fun fd2 h2 => hst fd2 (List.mem_cons_of_mem _ h2))]
    simp

theorem merge_generic_append (f : Nat) (l : Dict)
    (hrec : ∀ m2 : Dict, (∃ k, (k, Value.dict m2) ∈ l) →
      merge_configs_fuel f [] m2 = some m2)
    (hd : ∀ kv ∈ l, kv.1 ≠ "directives")
    (hnn : ∀ kv ∈ l, kv.2 ≠ Value.null) :
    ∀ acc : Dict, ((acc ++ l).map (fun kv => kv.1)).Nodup →
    merge_generic (merge_configs_fuel f) acc l = some (acc ++ l) := by
  induction l with
  | nil => intro acc _; simp [merge_generic]
  | cons kv rest ih =>
    intro acc hnd
    obtain ⟨k, v⟩ := kv
    have hknd : k ≠ "directives" := hd (k, v) (List.mem_cons_self _ _)
    have hkacc : k ∉ acc.map (fun kv => kv.1) := by
      intro hmem
      simp only [List.map_append, List.map_cons] at hnd
      exact (List.disjoint_of_nodup_append hnd) hmem (List.mem_cons_self _ _)
    have hrec' : ∀ m2 : Dict, (∃ k, (k, Value.dict m2) ∈ rest) →
        merge_configs_fuel f [] m2 = some m2 :=
      fun m2 hex => hrec m2 ⟨hex.choose, List.mem_cons_of_mem _ hex.choose_spec⟩
    have hd' : ∀ kv ∈ rest, kv.1 ≠ "directives" :=
      fun kv2 h2 => hd kv2 (List.mem_cons_of_mem _ h2)
    have hnn' : ∀ kv ∈ rest, kv.2 ≠ Value.null :=
      fun kv2 h2 => hnn kv2 (List.mem_cons_of_mem _ h2)
    simp only [merge_generic, if_neg hknd]
    cases v with
    | null => exact absurd rfl (hnn (k, Value.null) (List.mem_cons_self _ _))
    | dict m2 =>
      show (match merge_configs_fuel f (existingDict acc k) m2 with
        | none => none
        | some merged =>
            merge_generic (merge_configs_fuel f) (alistSet acc k (Value.dict merged)) rest) =
          some (acc ++ (k, Value.dict m2) :: rest)
      have hex : existingDict acc k = [] := by
        rw [existingDict, alistGet_eq_none_of_not_mem _ _ hkacc]
      rw [hex, hrec m2 ⟨k, List.mem_cons_self _ _⟩]
      show merge_generic (merge_configs_fuel f) (alistSet acc k (Value.dict m2)) rest =
        some (acc ++ (k, Value.dict m2) :: rest)
      rw [alistSet_of_not_mem _ _ _ hkacc]
      rw [ih hrec' hd' hnn' (acc ++ [(k, Value.dict m2)]) (by simpa using hnd)]
      simp
    | bool b =>
      show merge_generic (merge_configs_fuel f) (alistSet acc k (Value.bool b)) rest =
        some (acc ++ (k, Value.bool b) :: rest)
      rw [alistSet_of_not_mem _ _ _ hkacc]
      rw [ih hrec' hd' hnn' (acc ++ [(k, Value.bool b)]) (by simpa using hnd)]
      simp
    | int n =>
      show merge_generic (merge_configs_fuel f) (alistSet acc k (Value.int n)) rest =
        some (acc ++ (k, Value.int n) :: rest)
      rw [alistSet_of_not_mem _ _ _ hkacc]
      rw [ih hrec' hd' hnn' (acc ++ [(k, Value.int n)]) (by simpa using hnd)]
      simp
    | str s =>
      show merge_generic (merge_configs_fuel f) (alistSet acc k (Value.str s)) rest =
        some (acc ++ (k, Value.str s) :: rest)
      rw [alistSet_of_not_mem _ _ _ hkacc]
      rw [ih hrec' hd' hnn' (acc ++ [(k, Value.str s)]) (by simpa using hnd)]
      simp
    | list xs =>
      show merge_generic (merge_configs_fuel f) (alistSet acc k (Value.list xs)) rest =
        some (acc ++ (k, Value.list xs) :: rest)
      rw [alistSet_of_not_mem _ _ _ hkacc]
      rw [ih hrec' hd' hnn' (acc ++ [(k, Value.list xs)]) (by simpa using hnd)]
      simp

theorem merge_configs_fuel_none_dirs (fuel : Nat) (base overlay : Dict)
    (h : alistGet overlay "directives" = none) :
    merge_configs_fuel (fuel + 1) base overlay =
      merge_generic (merge_configs_fuel fuel) base overlay := by
  simp only [merge_configs_fuel]
  rw [h]

theorem merge_empty_stable (f : Nat) :
    ∀ m : Dict, mergeStableF f m = true → merge_configs [] m = some m := by
  induction f with
  | zero => intro m h; simp [mergeStableF] at h
  | succ f ih =>
    intro m h
    simp only [mergeStableF, Bool.and_eq_true, decide_eq_true_eq, List.all_eq_true] at h
    obtain ⟨⟨hnd, hfirst⟩, hall⟩ := h
    have hitem : ∀ kv ∈ m, kv.1 ≠ "directives" →
        kv.2 ≠ Value.null ∧ ∀ m2, kv.2 = Value.dict m2 → mergeStableF f m2 = true := by
      intro kv hkv hkd
      have hthis := hall kv hkv
      rw [if_neg hkd] at hthis
      cases hv : kv.2 <;> rw [hv] at hthis
      · exact absurd hthis (by simp)
      · exact ⟨by simp [hv], fun m2 hm2 => by cases hm2⟩
      · exact ⟨by simp [hv], fun m2 hm2 => by cases hm2⟩
      · exact ⟨by simp [hv], fun m2 hm2 => by cases hm2⟩
      · exact ⟨by simp [hv], fun m2 hm2 => by cases hm2⟩
      · refine ⟨by simp [hv], fun m2 hm2 => ?_⟩
        injection hm2 with hm2
        subst hm2
        exact hthis
    have hrecOf : ∀ l : Dict, (∀ kv ∈ l, kv ∈ m) → (∀ kv ∈ l, kv.1 ≠ "directives") →
        ∀ m2 : Dict, (∃ k, (k, Value.dict m2) ∈ l) →
        merge_configs_fuel (entsSize m) [] m2 = some m2 := by
      rintro l hsub hld m2 ⟨k, hk⟩
      have hm2st := (hitem (k, Value.dict m2) (hsub _ hk) (hld _ hk)).2 m2 rfl
      have hlt : entsSize m2 < entsSize m := entsSize_lt_of_mem k m2 m (hsub _ hk)
      rw [← merge_configs_eq_fuel _ _ _ (by omega)]
      exact ih m2 hm2st
    cases m with
    | nil => rfl
    | cons kv0 rest =>
      obtain ⟨k0, v0⟩ := kv0
      by_cases hk0 : k0 = "directives"
      · subst hk0
        have hthis := hall ("directives", v0) (List.mem_cons_self _ _)
        rw [if_pos rfl] at hthis
        cases hv0 : v0 <;> rw [hv0] at hthis
        · exact absurd hthis (by simp)
        · exact absurd hthis (by simp)
        · exact absurd hthis (by simp)
        · exact absurd hthis (by simp)
        · exact absurd hthis (by simp)
        rename_i dOv
        simp only [Bool.and_eq_true, decide_eq_true_eq, List.all_eq_true] at hthis
        obtain ⟨hdnd, hdst⟩ := hthis
        subst hv0
        simp only [List.map_cons, List.nodup_cons] at hnd
        have hrd : ∀ kv ∈ rest, kv.1 ≠ "directives" := by
          intro kv hkv he
          exact hnd.1 (he ▸ List.mem_map_of_mem _ hkv)
        have hsub : ∀ kv ∈ rest, kv ∈ ("directives", Value.dict dOv) :: rest :=
          fun kv hkv => List.mem_cons_of_mem _ hkv
        have hAD : applyDirectives [] dOv = dOv :=
          applyDirectives_stable dOv [] (by simpa using hdnd) hdst
        have hstep : merge_configs
            [] (("directives", Value.dict dOv) :: rest) =
            merge_generic
              (merge_configs_fuel (entsSize (("directives", Value.dict dOv) :: rest)))
              [("directives", Value.dict (applyDirectives [] dOv))]
              (("directives", Value.dict dOv) :: rest) := rfl
        rw [hstep, hAD]
        have hskip : merge_generic
            (merge_configs_fuel (entsSize (("directives", Value.dict dOv) :: rest)))
            [("directives", Value.dict dOv)]
            (("directives", Value.dict dOv) :: rest) =
            merge_generic
            (merge_configs_fuel (entsSize (("directives", Value.dict dOv) :: rest)))
            [("directives", Value.dict dOv)] rest := by
          simp [merge_generic]
        rw [hskip]
        rw [merge_generic_append _ rest
          (hrecOf rest hsub hrd) hrd
          (fun kv hkv => (hitem kv (hsub kv hkv) (hrd kv hkv)).1)
          [("directives", Value.dict dOv)]
          (by simpa using List.Nodup.cons hnd.1 hnd.2)]
        simp
      · have hfirst2 : (k0 == "directives"
            || ((k0, v0) :: rest).all (fun kv2 => kv2.1 != "directives")) = true := hfirst
        rw [Bool.or_eq_true] at hfirst2
        rcases hfirst2 with hor | hor
        · exact absurd (by simpa using hor) hk0
        · simp only [List.all_eq_true, bne_iff_ne] at hor
          have hget : alistGet ((k0, v0) :: rest) "directives" = none := by
            apply alistGet_eq_none_of_not_mem
            intro hmem
            obtain ⟨kv, hkv, heq⟩ := List.mem_map.mp hmem
            exact hor kv hkv heq
          have hunf : merge_configs [] ((k0, v0) :: rest) =
              merge_configs_fuel (entsSize ((k0, v0) :: rest) + 1) []
                ((k0, v0) :: rest) := rfl
          rw [hunf, merge_configs_fuel_none_dirs _ _ _ hget]
          rw [merge_generic_append _ ((k0, v0) :: rest)
            (hrecOf _ (fun kv hkv => hkv) hor) hor
            (fun kv hkv => (hitem kv hkv (hor kv hkv)).1) []
            (by simpa using hnd)]
          simp

/-- C9 counterexample: `merge_configs({}, A)` is not structurally equal
(Python `==`) to a deep copy of A whenever A has a null value (the key
is deleted — generic null deletion, not directives deletion) or a
compound directives key (the map is rewritten by expansion); neither
deviation is directives *deletion* semantics. -/
theorem c9_counterexample :
    merge_configs [] [("a", Value.null)] = some [] ∧
    pyEq (Value.dict []) (Value.dict [("a", Value.null)]) = false ∧
    merge_configs [] [("directives", Value.dict [("--x,--y", Value.int 1)])] =
      some [("directives", Value.dict [("--x", Value.int 1), ("--y", Value.int 1)])] ∧
    pyEq (Value.dict [("directives", Value.dict [("--x", Value.int 1),
        ("--y", Value.int 1)])])
      (Value.dict [("directives", Value.dict [("--x,--y", Value.int 1)])]) = false :=
  ⟨rfl, rfl, rfl, rfl⟩

/-- C9 (amended): `merge_configs(A, {})` is literally A, for every A; and
`merge_configs({}, A)` is literally A provided A is merge-stable — its
mappings (recursively) have unique keys, contain no null values, and any
`directives` key is bound to a dict of already-canonical alias-free
entries and stands first in its mapping.  Otherwise the result deviates
by null deletion at every level and by directives expansion and
alias-stripping (and by the directives entry moving to the front, a
difference Python's order-insensitive dict equality does not see). -/
theorem c9_amended_merge_identity (A : Dict) (h : mergeStable A = true) :
    merge_configs A [] = some A ∧ merge_configs [] A = some A :=
  ⟨rfl, merge_empty_stable _ A h⟩

/-- C9 witness: a concrete merge-stable tree. -/
theorem c9_amended_merge_identity_witness :
    mergeStable stableA = true ∧
    merge_configs stableA [] = some stableA ∧ merge_configs [] stableA = some stableA :=
  ⟨rfl, c9_amended_merge_identity stableA rfl⟩

/-! ## Key-shape lemmas (C7) -/

theorem dropWhile_head_false (p : Char → Bool) (l : List Char) (c : Char) (t : List Char)
    (h : l.dropWhile p = c :: t) : p c = false := by
  induction l generalizing c t with
  | nil => simp [List.dropWhile] at h
  | cons a rest ih =>
    by_cases ha : p a
    · rw [List.dropWhile_cons_of_pos ha] at h
      exact ih _ _ h
    · rw [List.dropWhile_cons_of_neg ha] at h
      injection h with h1 _
      subst h1
      simpa using ha

theorem dropWhile_of_head_false (p : Char → Bool) (l : List Char)
    (h : ∀ c t, l = c :: t → p c = false) : l.dropWhile p = l := by
  cases l with
  | nil => rfl
  | cons a rest =>
    rw [List.dropWhile_cons_of_neg]
    simp [h a rest rfl]

theorem dropTrailing_eq_rdropWhile (p : Char → Bool) (l : List Char) :
    dropTrailing p l = List.rdropWhile p l := rfl

theorem stripChars_fix (cs : List Char) : stripChars (stripChars cs) = stripChars cs := by
  have hzy : stripChars cs <+: cs.dropWhile pyIsSpace := by
    rw [stripChars, dropTrailing_eq_rdropWhile]
    exact List.rdropWhile_prefix _ _
  have h1 : (stripChars cs).dropWhile pyIsSpace = stripChars cs := by
    cases hzc : stripChars cs with
    | nil => rfl
    | cons c t =>
      apply dropWhile_of_head_false
      intro c2 t2 he
      injection he with he1 _
      subst he1
      rw [hzc] at hzy
      obtain ⟨w, hw⟩ := hzy
      exact dropWhile_head_false pyIsSpace cs c (t ++ w) (by rw [← hw]; simp)
  show dropTrailing pyIsSpace ((stripChars cs).dropWhile pyIsSpace) = stripChars cs
  rw [h1, stripChars, dropTrailing_eq_rdropWhile, dropTrailing_eq_rdropWhile]
  exact List.rdropWhile_idempotent _ _

theorem pyStrip_fix (s : String) : pyStrip (pyStrip s) = pyStrip s := by
  show String.mk (stripChars (String.mk (stripChars s.data)).data) = _
  rw [show (String.mk (stripChars s.data)).data = stripChars s.data from rfl, stripChars_fix]
  rfl

theorem mem_setAdd (l : List String) (t k : String) (h : k ∈ setAdd l t) :
    k ∈ l ∨ k = t := by
  rw [setAdd] at h
  by_cases hm : t ∈ l
  · rw [if_pos hm] at h
    exact Or.inl h
  · rw [if_neg hm] at h
    simpa using h

theorem mem_addStripped (ks : List String) (s k : String) (h : k ∈ addStripped ks s) :
    k ∈ ks ∨ (k = pyStrip s ∧ k ≠ "") := by
  rw [addStripped] at h
  by_cases ht : pyStrip s ≠ ""
  · simp only [if_pos ht] at h
    rcases mem_setAdd _ _ _ h with h2 | h2
    · exact Or.inl h2
    · exact Or.inr ⟨h2, h2 ▸ ht⟩
  · simp only [if_neg ht] at h
    exact Or.inl h

theorem mem_strip_fold {β : Type} (f : List String → β → List String)
    (hf : ∀ ks b k, k ∈ f ks b → k ∈ ks ∨ ∃ s, k = pyStrip s ∧ k ≠ "") :
    ∀ (l : List β) (init : List String) (k : String),
      k ∈ l.foldl f init → k ∈ init ∨ ∃ s, k = pyStrip s ∧ k ≠ "" := by
  intro l
  induction l with
  | nil => intro init k h; exact Or.inl h
  | cons b rest ih =>
    intro init k h
    rw [List.foldl_cons] at h
    rcases ih (f init b) k h with h2 | h2
    · exact hf init b k h2
    · exact Or.inr h2

theorem expand_keys_good (raw : String) (d : Value) (k : String)
    (h : k ∈ expand_flag_keys raw d) : k ≠ "" ∧ pyStrip k = k := by
  have hadd : ∀ (ks : List String) (s : String) (k : String), k ∈ addStripped ks s →
      k ∈ ks ∨ ∃ s2, k = pyStrip s2 ∧ k ≠ "" := by
    intro ks s k hm
    rcases mem_addStripped ks s k hm with h2 | h2
    · exact Or.inl h2
    · exact Or.inr ⟨s, h2.1, h2.2⟩
  have hstr : ∀ (ks : List String) (a : Value) (k : String),
      k ∈ (match a with
           | Value.str s => addStripped ks s
           | _ => ks) →
      k ∈ ks ∨ ∃ s2, k = pyStrip s2 ∧ k ≠ "" := by
    intro ks a k hm
    cases a
    case str s => exact hadd ks s k hm
    all_goals exact Or.inl hm
  have hbase : ∀ k, k ∈ (let keys := (findFlags raw).foldl addStripped []
      if keys.isEmpty then
        (splitOnSeps raw.data).foldl (fun ks part => addStripped ks (String.mk part)) keys
      else keys) → ∃ s2, k = pyStrip s2 ∧ k ≠ "" := by
    intro k hk
    simp only [] at hk
    have h1 : ∀ k, k ∈ (findFlags raw).foldl addStripped ([] : List String) →
        ∃ s2, k = pyStrip s2 ∧ k ≠ "" := by
      intro k2 hk2
      rcases mem_strip_fold addStripped hadd _ _ _ hk2 with h3 | h3
      · simp at h3
      · exact h3
    by_cases he : ((findFlags raw).foldl addStripped ([] : List String)).isEmpty
    · rw [if_pos he] at hk
      rcases mem_strip_fold (fun ks part => addStripped ks (String.mk part))
        (fun ks b k3 hm => hadd ks (String.mk b) k3 hm) _ _ _ hk with h3 | h3
      · exact h1 _ h3
      · exact h3
    · rw [if_neg he] at hk
      exact h1 _ hk
  have hmain : ∃ s2, k = pyStrip s2 ∧ k ≠ "" := by
    cases hd : d
    case dict dd =>
      rw [hd] at h
      simp only [expand_flag_keys] at h
      rcases mem_strip_fold
        (fun ks field =>
          match alistGet dd field with
          | some (Value.list xs) =>
              xs.foldl (fun ks a =>
                match a with
                | Value.str s => addStripped ks s
                | _ => ks) ks
          | _ => ks)
        (by
          intro ks b k2 hm
          simp only [] at hm
          cases hg : alistGet dd b
          case none =>
            rw [hg] at hm
            exact Or.inl hm
          case some v =>
            cases v <;> rw [hg] at hm
            case list xs =>
              exact mem_strip_fold _ hstr xs ks k2 hm
            all_goals exact Or.inl hm)
        _ _ _ h with h3 | h3
      · exact hbase _ h3
      · exact h3
    all_goals
      rw [hd] at h
      simp only [expand_flag_keys] at h
      exact hbase _ h
  rcases hmain with ⟨s2, hks, hne⟩
  exact ⟨hne, by rw [hks, pyStrip_fix]⟩

theorem mem_foldl_alistSet_val (keys : List String) (v : Value) :
    ∀ (a : Dict) (kv : String × Value), kv ∈ keys.foldl (fun a k => alistSet a k v) a →
      kv ∈ a ∨ kv.1 ∈ keys := by
  induction keys with
  | nil => intro a kv h; exact Or.inl h
  | cons j rest ih =>
    intro a kv h
    rw [List.foldl_cons] at h
    rcases ih _ kv h with h2 | h2
    · rcases mem_alistSet _ _ _ _ h2 with h3 | h3
      · exact Or.inl h3
      · exact Or.inr (by simp [h3])
    · exact Or.inr (List.mem_cons_of_mem _ h2)

theorem mem_normalizeLoop (m : Dict) :
    ∀ (acc : Dict) (kv : String × Value), kv ∈ normalizeLoop acc m →
      kv ∈ acc ∨ ∃ raw d, kv.1 ∈ expand_flag_keys raw d := by
  induction m with
  | nil => intro acc kv h; exact Or.inl h
  | cons rd rest ih =>
    intro acc kv h
    rw [show normalizeLoop acc (rd :: rest) =
      normalizeLoop (normalizeLoop acc [rd]) rest from by simp [normalizeLoop]] at h
    rcases ih _ kv h with h2 | h2
    · obtain ⟨raw, dv⟩ := rd
      cases dv <;>
        simp only [normalizeLoop, List.foldl_cons, List.foldl_nil] at h2
      case null =>
        rcases mem_foldl_alistSet_val _ _ _ _ h2 with h3 | h3
        · exact Or.inl h3
        · exact Or.inr ⟨raw, Value.null, h3⟩
      case dict dd =>
        rcases mem_foldl_alistSet_val _ _ _ _ h2 with h3 | h3
        · exact Or.inl h3
        · exact Or.inr ⟨raw, Value.dict dd, h3⟩
      case bool b =>
        rcases mem_foldl_alistSet_val _ _ _ _ h2 with h3 | h3
        · exact Or.inl h3
        · exact Or.inr ⟨raw, Value.bool b, h3⟩
      case int n =>
        rcases mem_foldl_alistSet_val _ _ _ _ h2 with h3 | h3
        · exact Or.inl h3
        · exact Or.inr ⟨raw, Value.int n, h3⟩
      case str s =>
        rcases mem_foldl_alistSet_val _ _ _ _ h2 with h3 | h3
        · exact Or.inl h3
        · exact Or.inr ⟨raw, Value.str s, h3⟩
      case list xs =>
        rcases mem_foldl_alistSet_val _ _ _ _ h2 with h3 | h3
        · exact Or.inl h3
        · exact Or.inr ⟨raw, Value.list xs, h3⟩
    · exact Or.inr h2

theorem load_config_ok_some (fs : FS) (dir : FPath) (profiles : List String)
    (fuel : Nat) (cfg : Dict)
    (h : load_config fs dir profiles fuel = .ok (some cfg)) :
    ∃ config, loadProfilesLoop fs dir fuel profiles [] [] = .ok config ∧
      cfg = normalize_directives config := by
  unfold load_config at h
  by_cases hp : profiles.isEmpty
  · rw [if_pos hp] at h
    exact absurd h (by simp)
  · rw [if_neg hp] at h
    cases hl : loadProfilesLoop fs dir fuel profiles [] [] with
    | error e =>
      rw [hl] at h
      cases e <;> simp at h
    | ok config =>
      rw [hl] at h
      refine ⟨config, rfl, ?_⟩
      injection h with h
      injection h with h
      exact h.symm

theorem normalize_directives_keys (config : Dict) (m : Dict) (kv : String × Value)
    (hm : alistGet (normalize_directives config) "directives" = some (Value.dict m))
    (hkv : kv ∈ m) :
    ∃ raw d, kv.1 ∈ expand_flag_keys raw d := by
  unfold normalize_directives at hm
  cases hc : alistGet config "directives" with
  | none =>
    rw [hc] at hm
    rw [hc] at hm
    cases hm
  | some dv =>
    rw [hc] at hm
    cases dv with
    | dict m0 =>
      rw [alistGet_set_eq] at hm
      injection hm with hm
      injection hm with hm
      subst hm
      rcases mem_normalizeLoop m0 [] kv hkv with h | h
      · simp at h
      · exact h
    | null => rw [hc] at hm; injection hm with hm; cases hm
    | bool b => rw [hc] at hm; injection hm with hm; cases hm
    | int n => rw [hc] at hm; injection hm with hm; cases hm
    | str s => rw [hc] at hm; injection hm with hm; cases hm
    | list xs => rw [hc] at hm; injection hm with hm; cases hm

/-- C7 counterexample: a raw directive key with no `--` token survives
normalization verbatim via the comma/pipe-split fallback, so a
successful `load_config` can return a directives map whose key `foo`
does not start with `--`. -/
theorem c7_counterexample :
    load_config fsFooKey ["h"] ["claude"] 5 =
      .ok (some [("directives", Value.dict [("foo", Value.int 1)])]) ∧
    ("foo").data.take 2 ≠ ['-', '-'] :=
  ⟨rfl, by decide⟩

/-- C7 (amended): after every successful resolution, every key of the
final normalized directives map is a nonempty string with no leading or
trailing whitespace (it is a trimmed output of `expand_flag_keys`); keys
need not be canonical flag tokens — a raw key without a `--` token is
kept via the comma/pipe-split fallback, and alias/variation strings are
added verbatim. -/
theorem c7_amended_keys_trimmed (fs : FS) (dir : FPath) (profiles : List String)
    (fuel : Nat) (cfg m : Dict) (kv : String × Value)
    (h : load_config fs dir profiles fuel = .ok (some cfg))
    (hm : alistGet cfg "directives" = some (Value.dict m))
    (hkv : kv ∈ m) :
    kv.1 ≠ "" ∧ pyStrip kv.1 = kv.1 := by
  obtain ⟨config, _, hcfg⟩ := load_config_ok_some fs dir profiles fuel cfg h
  subst hcfg
  obtain ⟨raw, d, hk⟩ := normalize_directives_keys config m kv hm hkv
  exact expand_keys_good raw d kv.1 hk

/-- C7 witness: the `foo` key of the `fsFooKey` resolution is nonempty
and trimmed. -/
theorem c7_amended_keys_trimmed_witness :
    "foo" ≠ "" ∧ pyStrip "foo" = "foo" :=
  c7_amended_keys_trimmed fsFooKey ["h"] ["claude"] 5
    [("directives", Value.dict [("foo", Value.int 1)])]
    [("foo", Value.int 1)] ("foo", Value.int 1) rfl rfl (by simp)

/-- C10: there exist profile files whose content parses as valid YAML but
whose top-level document is not a mapping — a non-empty list or a
non-empty scalar string — for which `load_config` raises an uncaught
exception (`data.pop` on a non-dict) instead of returning the
no-configuration sentinel, because only `FileNotFoundError` and
`yaml.YAMLError` are caught; a document parsing to null or to any falsy
value (such as the empty string) is instead replaced by `{}` via
`or {}` and loads without error. -/
theorem c10_nonmapping_doc_uncaught :
    load_config fsListDoc ["h"] ["a"] 5 = .error .typeError ∧
    load_config fsStrDoc ["h"] ["claude"] 5 = .error .typeError ∧
    load_config fsNullDoc ["h"] ["claude"] 5 = .ok (some []) ∧
    load_config fsEmptyStrDoc ["h"] ["claude"] 5 = .ok (some []) :=
  ⟨rfl, rfl, rfl, rfl⟩

/-- C1 counterexample: in `fsListDoc` the named profile file `b.yaml`
does not exist, yet `load_config` on the profile list `["a", "b"]` does
not return the sentinel: it raises an uncaught `TypeError` first,
because `a.yaml` parses to a truthy non-mapping document. -/
theorem c1_counterexample :
    existsFS fsListDoc ["h", "b.yaml"] = false ∧
    resolve_profile_path ["h"] "b" = .ok ["h", "b.yaml"] ∧
    load_config fsListDoc ["h"] ["a", "b"] 5 = .error .typeError :=
  ⟨rfl, rfl, rfl⟩

/-- C1 (amended): whenever the profile/include resolution raises
`FileNotFoundError` (missing profile file or unresolvable include) or
`yaml.YAMLError` (parse failure), anywhere in the chain, `load_config`
returns the no-configuration sentinel and no partially merged tree;
however a file read earlier in the resolution order that parses to a
truthy non-mapping document raises an uncaught exception instead. -/
theorem c1_amended_error_means_sentinel (fs : FS) (dir : FPath)
    (profiles : List String) (fuel : Nat) (e : PyExc)
    (h : loadProfilesLoop fs dir fuel profiles [] [] = .error e)
    (he : e = .fileNotFound ∨ e = .yamlError) :
    load_config fs dir profiles fuel = .ok none := by
  cases profiles with
  | nil => exact absurd h (by simp [loadProfilesLoop])
  | cons p ps =>
    simp only [load_config, List.isEmpty_cons, Bool.false_eq_true, if_false]
    rw [h]
    rcases he with he | he <;> subst he <;> rfl

/-- C1 witness: a missing profile file makes the resolution raise
`FileNotFoundError` and `load_config` return the sentinel. -/
theorem c1_amended_error_means_sentinel_witness :
    loadProfilesLoop fsStrDoc ["h"] 5 ["nope"] [] [] = .error .fileNotFound ∧
    load_config fsStrDoc ["h"] ["nope"] 5 = .ok none :=
  ⟨rfl, c1_amended_error_means_sentinel fsStrDoc ["h"] ["nope"] 5 .fileNotFound rfl
    (Or.inl rfl)⟩

/-- C8 counterexample: `fsBlankInclude`'s profile file lists the
whitespace-only include `"   "`, yet the resolution does not abort: the
entry is skipped and `load_config` returns the file's own content, not
the sentinel. -/
theorem c8_counterexample :
    pyStrip "   " = "" ∧
    load_config fsBlankInclude ["h"] ["a"] 5 = .ok (some [("x", Value.int 1)]) :=
  ⟨rfl, rfl⟩

/-- C8 (amended): `resolve_include_targets` rejects an empty or
whitespace-only reference with a `ValueError`; but `load_profile_tree`
skips whitespace-only (and non-string) include entries before resolving
them, so an empty include reference never aborts the resolution; and a
`ValueError`, were it raised, would propagate out of `load_config`
uncaught rather than produce the sentinel. -/
theorem c8_amended_empty_include (fs : FS) (ref s : String) (basePath resolved : FPath)
    (rec : FPath → List FPath → Except PyExc (Dict × List FPath))
    (rest : List Value) (combined : Dict) (visited : List FPath)
    (dir : FPath) (profiles : List String) (fuel : Nat)
    (h1 : pyStrip ref = "") (h2 : pyStrip s = "")
    (h3 : loadProfilesLoop fs dir fuel profiles [] [] = .error .valueError) :
    resolve_include_targets fs ref basePath = .error .valueError ∧
    processIncludes fs rec resolved (Value.str s :: rest) combined visited =
      processIncludes fs rec resolved rest combined visited ∧
    load_config fs dir profiles fuel = .error .valueError := by
  refine ⟨?_, ?_, ?_⟩
  · simp [resolve_include_targets, h1]
  · simp [processIncludes, h2]
  · cases profiles with
    | nil => exact absurd h3 (by simp [loadProfilesLoop])
    | cons p ps =>
      simp only [load_config, List.isEmpty_cons, Bool.false_eq_true, if_false]
      rw [h3]

/-- C8 witness: concrete instances of the three amended conjuncts (the
`ValueError` reaching `load_config` arises from an empty profile name,
the one place the resolution can raise it). -/
theorem c8_amended_empty_include_witness :
    pyStrip " " = "" ∧
    loadProfilesLoop fsBlankInclude ["h"] 5 [""] [] [] = .error .valueError ∧
    (resolve_include_targets fsBlankInclude " " ["h", "a.yaml"] = .error .valueError ∧
     processIncludes fsBlankInclude (load_profile_tree fsBlankInclude 4) ["h", "a.yaml"]
        (Value.str " " :: []) [] [] =
       processIncludes fsBlankInclude (load_profile_tree fsBlankInclude 4) ["h", "a.yaml"]
        [] [] [] ∧
     load_config fsBlankInclude ["h"] [""] 5 = .error .valueError) :=
  ⟨rfl, rfl,
    c8_amended_empty_include fsBlankInclude " " " " ["h", "a.yaml"] ["h", "a.yaml"]
      (load_profile_tree fsBlankInclude 4) [] [] [] ["h"] [""] 5 rfl rfl rfl⟩

/-- C5: for every configuration file successfully loaded by
`load_profile_tree` (its resolved path unvisited and parsing to a
mapping), the result is `merge_configs` of the combined includes result
with the file body stripped of `includes` — the body merged last — and
consequently, for every canonical key whose last touching entry in the
body's own `directives` map assigns a value, the result's `directives`
map holds exactly that value, whatever the includes contributed. -/
theorem c5_own_body_precedence (fs : FS) (fuel : Nat) (profilePath : FPath)
    (visited visited2 : List FPath) (res entries : Dict)
    (hnv : normalizePath profilePath ∉ visited)
    (hdoc : lookupFile fs (normalizePath profilePath) =
      some (Doc.parsed (Value.dict entries)))
    (hok : load_profile_tree fs (fuel + 1) profilePath visited = .ok (res, visited2)) :
    ∃ incs combined visited3,
      iterIncludes (alistGet entries "includes") = .ok incs ∧
      processIncludes fs (load_profile_tree fs fuel) (normalizePath profilePath) incs []
        (normalizePath profilePath :: visited) = .ok (combined, visited3) ∧
      merge_configs combined (alistPop entries "includes") = some res ∧
      (∀ dOv k d,
        alistGet (alistPop entries "includes") "directives" = some (Value.dict dOv) →
        lastOutcome dOv k = some (some d) →
        ∃ rd, alistGet res "directives" = some (Value.dict rd) ∧
          alistGet rd k = some d) := by
  simp only [load_profile_tree] at hok
  rw [if_neg hnv, hdoc] at hok
  cases hd : isDirFS fs (normalizePath profilePath) with
  | true =>
    rw [if_pos (by rw [hd])] at hok
    exact absurd hok (by simp)
  | false =>
    rw [if_neg (by rw [hd]; exact Bool.false_ne_true)] at hok
    have hentries : (if pyTruthy (Value.dict entries) then Value.dict entries
        else Value.dict []) = Value.dict entries := by
      cases hpt : pyTruthy (Value.dict entries) with
      | false =>
        have he : entries = [] := List.isEmpty_iff.mp (by simpa [pyTruthy] using hpt)
        simp [he]
      | true => simp
    simp only [] at hok
    rw [hentries] at hok
    simp only [] at hok
    cases hi : iterIncludes (alistGet entries "includes") with
    | error e => rw [hi] at hok; exact absurd hok (by simp)
    | ok incs =>
      rw [hi] at hok
      simp only [] at hok
      cases hp : processIncludes fs (load_profile_tree fs fuel) (normalizePath profilePath)
          incs [] (normalizePath profilePath :: visited) with
      | error e => rw [hp] at hok; exact absurd hok (by simp)
      | ok pr =>
        obtain ⟨combined, visited3⟩ := pr
        rw [hp] at hok
        simp only [] at hok
        cases hm : merge_configs combined (alistPop entries "includes") with
        | none => rw [hm] at hok; exact absurd hok (by simp)
        | some m =>
          rw [hm] at hok
          simp only [] at hok
          injection hok with hok
          injection hok with h1 h2
          subst h1
          refine ⟨incs, combined, visited3, rfl, hp, hm, ?_⟩
          intro dOv k d hget hlast
          have hne : dOv ≠ [] := by
            intro hnil
            rw [hnil] at hlast
            simp [lastOutcome] at hlast
          obtain ⟨d0, hres, _⟩ :=
            merge_directives_content combined (alistPop entries "includes") _ dOv hget hne hm
          exact ⟨applyDirectives d0 dOv, hres, applyDirectives_get_assign dOv d0 k d hlast⟩


/-- C5 witness: in `fsOverride`, `main.yaml` includes `inc.yaml` and both
bind `--x`; the loaded tree of `main.yaml` carries the own-body value
`{foo: 2}` under `--x`. -/
theorem c5_own_body_precedence_witness :
    ∃ incs combined visited3,
      iterIncludes (alistGet [("includes", Value.list [Value.str "inc.yaml"]),
          ("directives", Value.dict [("--x", Value.dict [("foo", Value.int 2)])])]
        "includes") = .ok incs ∧
      processIncludes fsOverride (load_profile_tree fsOverride 4)
        (normalizePath ["h", "main.yaml"]) incs []
        (normalizePath ["h", "main.yaml"] :: []) = .ok (combined, visited3) ∧
      merge_configs combined
          (alistPop [("includes", Value.list [Value.str "inc.yaml"]),
            ("directives", Value.dict [("--x", Value.dict [("foo", Value.int 2)])])]
          "includes") =
        some [("directives", Value.dict [("--x", Value.dict [("foo", Value.int 2)])])] ∧
      (∀ dOv k d,
        alistGet (alistPop [("includes", Value.list [Value.str "inc.yaml"]),
            ("directives", Value.dict [("--x", Value.dict [("foo", Value.int 2)])])]
          "includes") "directives" = some (Value.dict dOv) →
        lastOutcome dOv k = some (some d) →
        ∃ rd, alistGet [("directives", Value.dict [("--x", Value.dict [("foo", Value.int 2)])])]
            "directives" = some (Value.dict rd) ∧
          alistGet rd k = some d) :=
  c5_own_body_precedence fsOverride 4 ["h", "main.yaml"] []
    [["h", "inc.yaml"], ["h", "main.yaml"]]
    [("directives", Value.dict [("--x", Value.dict [("foo", Value.int 2)])])]
    [("includes", Value.list [Value.str "inc.yaml"]),
     ("directives", Value.dict [("--x", Value.dict [("foo", Value.int 2)])])]
    (by simp) rfl rfl


theorem length_filter_le_of_imp (p q : FPath → Bool)
    (h : ∀ a, q a = true → p a = true) :
    ∀ l : List FPath, (l.filter q).length ≤ (l.filter p).length := by
  intro l
  induction l with
  | nil => simp
  | cons a t ih =>
    cases hq : q a
    · rw [List.filter_cons_of_neg (by simp [hq])]
      cases hp : p a
      · rw [List.filter_cons_of_neg (by simp [hp])]
        exact ih
      · rw [List.filter_cons_of_pos (by simp [hp])]
        exact Nat.le_succ_of_le ih
    · rw [List.filter_cons_of_pos (h a hq), List.filter_cons_of_pos hq]
      exact Nat.succ_le_succ ih

theorem newCount_mono (fs : FS) (v1 v2 : List FPath) (h : v1 ⊆ v2) :
    newCount fs v2 ≤ newCount fs v1 :=
  length_filter_le_of_imp _ _ (fun a ha => by
    simp only [decide_eq_true_eq] at ha ⊢
    exact fun hmem => ha (h hmem)) _

theorem filter_cons_notin_lt (visited : List FPath) (x : FPath) (hnv : x ∉ visited) :
    ∀ l : List FPath, x ∈ l →
      (l.filter (fun p => decide (p ∉ x :: visited))).length <
      (l.filter (fun p => decide (p ∉ visited))).length := by
  intro l
  induction l with
  | nil => intro h; cases h
  | cons a t ih =>
    intro hmem
    by_cases hax : a = x
    · subst hax
      rw [List.filter_cons_of_neg (by simp), List.filter_cons_of_pos (by simpa using hnv)]
      refine Nat.lt_succ_of_le (length_filter_le_of_imp _ _ (fun b hb => ?_) t)
      simp only [decide_eq_true_eq, List.mem_cons] at hb ⊢
      exact fun hbv => hb (Or.inr hbv)
    · have hmem2 : x ∈ t := by
        rcases List.mem_cons.mp hmem with h | h
        · exact absurd h.symm hax
        · exact h
      by_cases hav : a ∈ visited
      · rw [List.filter_cons_of_neg (by simp [hav]), List.filter_cons_of_neg (by simp [hav])]
        exact ih hmem2
      · rw [List.filter_cons_of_pos (by simp [hax, hav]),
          List.filter_cons_of_pos (by simpa using hav)]
        exact Nat.succ_lt_succ (ih hmem2)

theorem mem_fsFilePaths_of_lookup (fs : FS) (p : FPath) (doc : Doc)
    (h : lookupFile fs p = some doc) : p ∈ fsFilePaths fs := by
  simp only [lookupFile] at h
  cases hf : List.find? (fun e => e.1 == p) fs.files with
  | none => rw [hf] at h; simp at h
  | some e =>
    have hmem := List.mem_of_find?_eq_some hf
    have hpq := List.find?_some hf
    have hep : e.1 = p := by simpa using hpq
    rw [← hep]
    exact List.mem_map_of_mem _ hmem

theorem newCount_cons_lt (fs : FS) (x : FPath) (visited : List FPath)
    (hx : x ∈ fsFilePaths fs) (hnv : x ∉ visited) :
    newCount fs (x :: visited) < newCount fs visited :=
  filter_cons_notin_lt visited x hnv (fsFilePaths fs) hx

theorem processTargets_visited_subset (fs : FS)
    (rec : FPath → List FPath → Except PyExc (Dict × List FPath))
    (hrec : ∀ t vis d v2, rec t vis = .ok (d, v2) → vis ⊆ v2) :
    ∀ ts combined vis c2 v2, processTargets fs rec ts combined vis = .ok (c2, v2) →
      vis ⊆ v2 := by
  intro ts
  induction ts with
  | nil =>
    intro combined vis c2 v2 h
    simp only [processTargets] at h
    injection h with h
    injection h with h1 h2
    subst h2
    exact List.Subset.refl _
  | cons t rest ih =>
    intro combined vis c2 v2 h
    simp only [processTargets] at h
    by_cases he : existsFS fs t = true
    · rw [if_pos he] at h
      cases hr : rec t vis with
      | error e => rw [hr] at h; exact absurd h (by simp)
      | ok pr =>
        obtain ⟨sub, visr⟩ := pr
        rw [hr] at h
        simp only [] at h
        cases hm : merge_configs combined sub with
        | none => rw [hm] at h; exact absurd h (by simp)
        | some m =>
          rw [hm] at h
          exact (hrec t vis sub visr hr).trans (ih m visr c2 v2 h)
    · rw [if_neg he] at h; exact absurd h (by simp)

theorem processIncludes_visited_subset (fs : FS)
    (rec : FPath → List FPath → Except PyExc (Dict × List FPath)) (resolved : FPath)
    (hrec : ∀ t vis d v2, rec t vis = .ok (d, v2) → vis ⊆ v2) :
    ∀ incs combined vis c2 v2,
      processIncludes fs rec resolved incs combined vis = .ok (c2, v2) → vis ⊆ v2 := by
  intro incs
  induction incs with
  | nil =>
    intro combined vis c2 v2 h
    simp only [processIncludes] at h
    injection h with h
    injection h with h1 h2
    subst h2
    exact List.Subset.refl _
  | cons incV rest ih =>
    intro combined vis c2 v2 h
    simp only [processIncludes] at h
    cases incV with
    | str s =>
      simp only [] at h
      by_cases hs : pyStrip s = ""
      · rw [if_pos hs] at h
        exact ih _ _ _ _ h
      · rw [if_neg hs] at h
        cases hrt : resolve_include_targets fs s resolved with
        | error e => rw [hrt] at h; exact absurd h (by simp)
        | ok targets =>
          rw [hrt] at h
          simp only [] at h
          cases hpt : processTargets fs rec targets combined vis with
          | error e => rw [hpt] at h; exact absurd h (by simp)
          | ok pr =>
            obtain ⟨cmid, vmid⟩ := pr
            rw [hpt] at h
            simp only [] at h
            exact (processTargets_visited_subset fs rec hrec targets combined vis cmid vmid
              hpt).trans (ih _ _ _ _ h)
    | null => exact ih _ _ _ _ h
    | bool b => exact ih _ _ _ _ h
    | int n => exact ih _ _ _ _ h
    | list xs => exact ih _ _ _ _ h
    | dict m => exact ih _ _ _ _ h

theorem lpt_visited_subset (fs : FS) :
    ∀ fuel p visited d v2, load_profile_tree fs fuel p visited = .ok (d, v2) →
      visited ⊆ v2 := by
  intro fuel
  induction fuel with
  | zero =>
    intro p visited d v2 h
    exact absurd h (by simp [load_profile_tree])
  | succ f ih =>
    intro p visited d v2 h
    simp only [load_profile_tree] at h
    by_cases hv : normalizePath p ∈ visited
    · rw [if_pos hv] at h
      injection h with h
      injection h with h1 h2
      subst h2
      exact List.Subset.refl _
    · rw [if_neg hv] at h
      by_cases hd : isDirFS fs (normalizePath p) = true
      · rw [if_pos hd] at h; exact absurd h (by simp)
      · rw [if_neg hd] at h
        cases hl : lookupFile fs (normalizePath p) with
        | none => rw [hl] at h; exact absurd h (by simp)
        | some doc =>
          rw [hl] at h
          cases doc with
          | bad => exact absurd h (by simp)
          | parsed docv =>
            simp only [] at h
            cases hdata : (if pyTruthy docv = true then docv else Value.dict []) with
            | null => rw [hdata] at h; exact absurd h (by simp)
            | bool b => rw [hdata] at h; exact absurd h (by simp)
            | int n => rw [hdata] at h; exact absurd h (by simp)
            | str s2 => rw [hdata] at h; exact absurd h (by simp)
            | list xs => rw [hdata] at h; exact absurd h (by simp)
            | dict entries =>
              rw [hdata] at h
              simp only [] at h
              cases hi : iterIncludes (alistGet entries "includes") with
              | error e => rw [hi] at h; exact absurd h (by simp)
              | ok incs =>
                rw [hi] at h
                simp only [] at h
                cases hp : processIncludes fs (load_profile_tree fs f) (normalizePath p)
                    incs [] (normalizePath p :: visited) with
                | error e => rw [hp] at h; exact absurd h (by simp)
                | ok pr =>
                  obtain ⟨combined, vmid⟩ := pr
                  rw [hp] at h
                  simp only [] at h
                  cases hm : merge_configs combined (alistPop entries "includes") with
                  | none => rw [hm] at h; exact absurd h (by simp)
                  | some m =>
                    rw [hm] at h
                    simp only [] at h
                    injection h with h
                    injection h with h1 h2
                    subst h2
                    exact (List.subset_cons_self _ _).trans
                      (processIncludes_visited_subset fs (load_profile_tree fs f)
                        (normalizePath p) (fun t vis d2 w2 => ih t vis d2 w2)
                        incs [] (normalizePath p :: visited) combined _ hp)


theorem processTargets_congr (fs : FS)
    (rec1 rec2 : FPath → List FPath → Except PyExc (Dict × List FPath)) (K : Nat)
    (hag : ∀ t vis, newCount fs vis ≤ K → rec1 t vis = rec2 t vis)
    (hsub : ∀ t vis d v2, rec1 t vis = .ok (d, v2) → vis ⊆ v2) :
    ∀ ts combined vis, newCount fs vis ≤ K →
      processTargets fs rec1 ts combined vis = processTargets fs rec2 ts combined vis := by
  intro ts
  induction ts with
  | nil => intro combined vis hK; rfl
  | cons t rest ih =>
    intro combined vis hK
    simp only [processTargets]
    by_cases he : existsFS fs t = true
    · rw [if_pos he, if_pos he, ← hag t vis hK]
      cases hr : rec1 t vis with
      | error e => rfl
      | ok pr =>
        obtain ⟨sub, visr⟩ := pr
        simp only []
        cases hm : merge_configs combined sub with
        | none => rfl
        | some m =>
          exact ih m visr (le_trans (newCount_mono fs vis visr (hsub t vis sub visr hr)) hK)
    · rw [if_neg he, if_neg he]

theorem processIncludes_congr (fs : FS)
    (rec1 rec2 : FPath → List FPath → Except PyExc (Dict × List FPath))
    (resolved : FPath) (K : Nat)
    (hag : ∀ t vis, newCount fs vis ≤ K → rec1 t vis = rec2 t vis)
    (hsub : ∀ t vis d v2, rec1 t vis = .ok (d, v2) → vis ⊆ v2)
    (hsub2 : ∀ t vis d v2, rec2 t vis = .ok (d, v2) → vis ⊆ v2) :
    ∀ incs combined vis, newCount fs vis ≤ K →
      processIncludes fs rec1 resolved incs combined vis =
        processIncludes fs rec2 resolved incs combined vis := by
  intro incs
  induction incs with
  | nil => intro combined vis hK; rfl
  | cons incV rest ih =>
    intro combined vis hK
    simp only [processIncludes]
    cases incV with
    | str s =>
      simp only []
      by_cases hs : pyStrip s = ""
      · rw [if_pos hs, if_pos hs]
        exact ih combined vis hK
      · rw [if_neg hs, if_neg hs]
        cases hrt : resolve_include_targets fs s resolved with
        | error e => rfl
        | ok targets =>
          simp only []
          rw [processTargets_congr fs rec1 rec2 K hag hsub targets combined vis hK]
          cases hpt : processTargets fs rec2 targets combined vis with
          | error e => rfl
          | ok pr =>
            obtain ⟨cmid, vmid⟩ := pr
            simp only []
            exact ih cmid vmid (le_trans (newCount_mono fs vis vmid
              (processTargets_visited_subset fs rec2 hsub2 targets combined vis cmid vmid
                hpt)) hK)
    | null => exact ih combined vis hK
    | bool b => exact ih combined vis hK
    | int n => exact ih combined vis hK
    | list xs => exact ih combined vis hK
    | dict m => exact ih combined vis hK

theorem lpt_fuel_congr (fs : FS) :
    ∀ fuel fuel2 p visited, newCount fs visited < fuel → newCount fs visited < fuel2 →
      load_profile_tree fs fuel p visited = load_profile_tree fs fuel2 p visited := by
  intro fuel
  induction fuel with
  | zero => intro fuel2 p visited h1 h2; exact absurd h1 (by omega)
  | succ f ih =>
    intro fuel2 p visited h1 h2
    cases fuel2 with
    | zero => exact absurd h2 (by omega)
    | succ g =>
      simp only [load_profile_tree]
      by_cases hv : normalizePath p ∈ visited
      · rw [if_pos hv, if_pos hv]
      · rw [if_neg hv, if_neg hv]
        by_cases hd : isDirFS fs (normalizePath p) = true
        · rw [if_pos hd, if_pos hd]
        · rw [if_neg hd, if_neg hd]
          cases hl : lookupFile fs (normalizePath p) with
          | none => rfl
          | some doc =>
            cases doc with
            | bad => rfl
            | parsed docv =>
              simp only []
              cases hdata : (if pyTruthy docv = true then docv else Value.dict []) with
              | null => rfl
              | bool b => rfl
              | int n => rfl
              | str s2 => rfl
              | list xs => rfl
              | dict entries =>
                simp only []
                cases hi : iterIncludes (alistGet entries "includes") with
                | error e => rfl
                | ok incs =>
                  simp only []
                  have hmem : normalizePath p ∈ fsFilePaths fs :=
                    mem_fsFilePaths_of_lookup fs _ _ hl
                  have hK : newCount fs (normalizePath p :: visited) < newCount fs visited :=
                    newCount_cons_lt fs _ visited hmem hv
                  rw [processIncludes_congr fs (load_profile_tree fs f) (load_profile_tree fs g)
                    (normalizePath p) (newCount fs (normalizePath p :: visited))
                    (fun t vis hvK => ih g t vis (by omega) (by omega))
                    (fun t vis d2 w2 => lpt_visited_subset fs f t vis d2 w2)
                    (fun t vis d2 w2 => lpt_visited_subset fs g t vis d2 w2)
                    incs [] (normalizePath p :: visited) (le_refl _)]

theorem resolve_targets_no_outOfFuel (fs : FS) (s : String) (b : FPath) :
    resolve_include_targets fs s b ≠ .error .outOfFuel := by
  intro h
  simp only [resolve_include_targets] at h
  repeat' split at h
  all_goals simp_all

theorem iterIncludes_no_outOfFuel (ov : Option Value) :
    iterIncludes ov ≠ .error .outOfFuel := by
  intro h
  simp only [iterIncludes] at h
  repeat' split at h
  all_goals simp_all

theorem processTargets_no_outOfFuel (fs : FS)
    (rec : FPath → List FPath → Except PyExc (Dict × List FPath)) (K : Nat)
    (hrec : ∀ t vis, newCount fs vis ≤ K → rec t vis ≠ .error .outOfFuel)
    (hsub : ∀ t vis d v2, rec t vis = .ok (d, v2) → vis ⊆ v2) :
    ∀ ts combined vis, newCount fs vis ≤ K →
      processTargets fs rec ts combined vis ≠ .error .outOfFuel := by
  intro ts
  induction ts with
  | nil => intro combined vis hK h; exact absurd h (by simp [processTargets])
  | cons t rest ih =>
    intro combined vis hK h
    simp only [processTargets] at h
    by_cases he : existsFS fs t = true
    · rw [if_pos he] at h
      cases hr : rec t vis with
      | error e =>
        rw [hr] at h
        injection h with h
        subst h
        exact hrec t vis hK hr
      | ok pr =>
        obtain ⟨sub, visr⟩ := pr
        rw [hr] at h
        simp only [] at h
        cases hm : merge_configs combined sub with
        | none => rw [hm] at h; exact absurd h (by simp)
        | some m =>
          rw [hm] at h
          exact ih m visr
            (le_trans (newCount_mono fs vis visr (hsub t vis sub visr hr)) hK) h
    · rw [if_neg he] at h; exact absurd h (by simp)

theorem processIncludes_no_outOfFuel (fs : FS)
    (rec : FPath → List FPath → Except PyExc (Dict × List FPath))
    (resolved : FPath) (K : Nat)
    (hrec : ∀ t vis, newCount fs vis ≤ K → rec t vis ≠ .error .outOfFuel)
    (hsub : ∀ t vis d v2, rec t vis = .ok (d, v2) → vis ⊆ v2) :
    ∀ incs combined vis, newCount fs vis ≤ K →
      processIncludes fs rec resolved incs combined vis ≠ .error .outOfFuel := by
  intro incs
  induction incs with
  | nil => intro combined vis hK h; exact absurd h (by simp [processIncludes])
  | cons incV rest ih =>
    intro combined vis hK h
    simp only [processIncludes] at h
    cases incV with
    | str s =>
      simp only [] at h
      by_cases hs : pyStrip s = ""
      · rw [if_pos hs] at h
        exact ih combined vis hK h
      · rw [if_neg hs] at h
        cases hrt : resolve_include_targets fs s resolved with
        | error e =>
          rw [hrt] at h
          injection h with h
          subst h
          exact resolve_targets_no_outOfFuel fs s resolved hrt
        | ok targets =>
          rw [hrt] at h
          simp only [] at h
          cases hpt : processTargets fs rec targets combined vis with
          | error e =>
            rw [hpt] at h
            injection h with h
            subst h
            exact processTargets_no_outOfFuel fs rec K hrec hsub targets combined vis hK hpt
          | ok pr =>
            obtain ⟨cmid, vmid⟩ := pr
            rw [hpt] at h
            simp only [] at h
            exact ih cmid vmid (le_trans (newCount_mono fs vis vmid
              (processTargets_visited_subset fs rec hsub targets combined vis cmid vmid
                hpt)) hK) h
    | null => exact ih combined vis hK h
    | bool b => exact ih combined vis hK h
    | int n => exact ih combined vis hK h
    | list xs => exact ih combined vis hK h
    | dict m => exact ih combined vis hK h

theorem lpt_no_outOfFuel (fs : FS) :
    ∀ fuel p visited, newCount fs visited < fuel →
      load_profile_tree fs fuel p visited ≠ .error .outOfFuel := by
  intro fuel
  induction fuel with
  | zero => intro p visited h1; exact absurd h1 (by omega)
  | succ f ih =>
    intro p visited h1 h
    simp only [load_profile_tree] at h
    by_cases hv : normalizePath p ∈ visited
    · rw [if_pos hv] at h; exact absurd h (by simp)
    · rw [if_neg hv] at h
      by_cases hd : isDirFS fs (normalizePath p) = true
      · rw [if_pos hd] at h; exact absurd h (by simp)
      · rw [if_neg hd] at h
        cases hl : lookupFile fs (normalizePath p) with
        | none => rw [hl] at h; exact absurd h (by simp)
        | some doc =>
          rw [hl] at h
          cases doc with
          | bad => exact absurd h (by simp)
          | parsed docv =>
            simp only [] at h
            cases hdata : (if pyTruthy docv = true then docv else Value.dict []) with
            | null => rw [hdata] at h; exact absurd h (by simp)
            | bool b => rw [hdata] at h; exact absurd h (by simp)
            | int n => rw [hdata] at h; exact absurd h (by simp)
            | str s2 => rw [hdata] at h; exact absurd h (by simp)
            | list xs => rw [hdata] at h; exact absurd h (by simp)
            | dict entries =>
              rw [hdata] at h
              simp only [] at h
              cases hi : iterIncludes (alistGet entries "includes") with
              | error e =>
                rw [hi] at h
                injection h with h
                subst h
                exact iterIncludes_no_outOfFuel _ hi
              | ok incs =>
                rw [hi] at h
                simp only [] at h
                have hmem : normalizePath p ∈ fsFilePaths fs :=
                  mem_fsFilePaths_of_lookup fs _ _ hl
                have hK : newCount fs (normalizePath p :: visited) < newCount fs visited :=
                  newCount_cons_lt fs _ visited hmem hv
                cases hp : processIncludes fs (load_profile_tree fs f) (normalizePath p)
                    incs [] (normalizePath p :: visited) with
                | error e =>
                  rw [hp] at h
                  injection h with h
                  subst h
                  exact processIncludes_no_outOfFuel fs (load_profile_tree fs f)
                    (normalizePath p) (newCount fs (normalizePath p :: visited))
                    (fun t vis hvK => ih t vis (by omega))
                    (fun t vis d2 w2 => lpt_visited_subset fs f t vis d2 w2)
                    incs [] (normalizePath p :: visited) (le_refl _) hp
                | ok pr =>
                  obtain ⟨combined, vmid⟩ := pr
                  rw [hp] at h
                  simp only [] at h
                  cases hm : merge_configs combined (alistPop entries "includes") with
                  | none => rw [hm] at h; exact absurd h (by simp)
                  | some m => rw [hm] at h; exact absurd h (by simp)


/-- C4: `load_profile_tree` terminates on every include graph, cyclic
and diamond-shaped ones included: with any fuel above the number of
not-yet-visited files (`newCount`), the result never runs out of fuel
and is independent of the fuel, so the fuelled embedding computes the
total function the recursion denotes; and when a file's resolved path
is already in the visited set the call returns the empty configuration
and unchanged visited set immediately, without reading the file, so the
second visit during a cycle contributes nothing and is not an error. -/
theorem c4_terminates_and_short_circuits (fs : FS) (p : FPath) (visited : List FPath)
    (fuel fuel2 : Nat) (h1 : newCount fs visited < fuel) (h2 : newCount fs visited < fuel2) :
    load_profile_tree fs fuel p visited ≠ .error .outOfFuel ∧
    load_profile_tree fs fuel p visited = load_profile_tree fs fuel2 p visited ∧
    (normalizePath p ∈ visited → load_profile_tree fs fuel p visited = .ok ([], visited)) := by
  refine ⟨lpt_no_outOfFuel fs fuel p visited h1,
    lpt_fuel_congr fs fuel fuel2 p visited h1 h2, ?_⟩
  intro hv
  cases fuel with
  | zero => exact absurd h1 (by omega)
  | succ f =>
    simp only [load_profile_tree]
    rw [if_pos hv]

/-- C4 witness: in the two-file include cycle `fsCycle`, loading
`a.yaml` with fuel 3 does not run out of fuel and agrees with fuel 10. -/
theorem c4_terminates_and_short_circuits_witness :
    load_profile_tree fsCycle 3 ["h", "a.yaml"] [] ≠ .error .outOfFuel ∧
    load_profile_tree fsCycle 3 ["h", "a.yaml"] [] =
      load_profile_tree fsCycle 10 ["h", "a.yaml"] [] ∧
    (normalizePath ["h", "a.yaml"] ∈ ([] : List FPath) →
      load_profile_tree fsCycle 3 ["h", "a.yaml"] [] = .ok ([], [])) :=
  c4_terminates_and_short_circuits fsCycle ["h", "a.yaml"] [] 3 10 (by decide) (by decide)

/-! ## Identity-model lemmas -/

mutual
theorem icopyV_counter : ∀ (v : IVal) (c : Nat), c ≤ (icopyV v c).2
  | .null, c => Nat.le_refl c
  | .bool _, c => Nat.le_refl c
  | .int _, c => Nat.le_refl c
  | .str _, c => Nat.le_refl c
  | .list _ xs, c => Nat.le_trans (Nat.le_succ c) (icopyL_counter xs (c + 1))
  | .dict _ m, c => Nat.le_trans (Nat.le_succ c) (icopyE_counter m (c + 1))
theorem icopyL_counter : ∀ (xs : List IVal) (c : Nat), c ≤ (icopyL xs c).2
  | [], c => Nat.le_refl c
  | v :: rest, c =>
      Nat.le_trans (icopyV_counter v c) (icopyL_counter rest (icopyV v c).2)
theorem icopyE_counter : ∀ (ents : List (String × IVal)) (c : Nat), c ≤ (icopyE ents c).2
  | [], c => Nat.le_refl c
  | kv :: rest, c =>
      Nat.le_trans (icopyV_counter kv.2 c) (icopyE_counter rest (icopyV kv.2 c).2)
end

mutual
theorem icopyV_ids_ge : ∀ (v : IVal) (c : Nat) (i : Nat), i ∈ idsV (icopyV v c).1 → c ≤ i
  | .null, _, _ => fun h => absurd h (by simp [icopyV, idsV])
  | .bool _, _, _ => fun h => absurd h (by simp [icopyV, idsV])
  | .int _, _, _ => fun h => absurd h (by simp [icopyV, idsV])
  | .str _, _, _ => fun h => absurd h (by simp [icopyV, idsV])
  | .list _ xs, c, i => fun h => by
      have h2 : i = c ∨ i ∈ idsL (icopyL xs (c + 1)).1 := by
        simpa [icopyV, idsV] using h
      rcases h2 with h2 | h2
      · omega
      · exact Nat.le_trans (Nat.le_succ c) (icopyL_ids_ge xs (c + 1) i h2)
  | .dict _ m, c, i => fun h => by
      have h2 : i = c ∨ i ∈ idsE (icopyE m (c + 1)).1 := by
        simpa [icopyV, idsV] using h
      rcases h2 with h2 | h2
      · omega
      · exact Nat.le_trans (Nat.le_succ c) (icopyE_ids_ge m (c + 1) i h2)
theorem icopyL_ids_ge : ∀ (xs : List IVal) (c : Nat) (i : Nat),
    i ∈ idsL (icopyL xs c).1 → c ≤ i
  | [], _, _ => fun h => absurd h (by simp [icopyL, idsL])
  | v :: rest, c, i => fun h => by
      have h2 : i ∈ idsV (icopyV v c).1 ∨ i ∈ idsL (icopyL rest (icopyV v c).2).1 := by
        simpa [icopyL, idsL] using h
      rcases h2 with h2 | h2
      · exact icopyV_ids_ge v c i h2
      · exact Nat.le_trans (icopyV_counter v c)
          (icopyL_ids_ge rest (icopyV v c).2 i h2)
theorem icopyE_ids_ge : ∀ (ents : List (String × IVal)) (c : Nat) (i : Nat),
    i ∈ idsE (icopyE ents c).1 → c ≤ i
  | [], _, _ => fun h => absurd h (by simp [icopyE, idsE])
  | kv :: rest, c, i => fun h => by
      have h2 : i ∈ idsV (icopyV kv.2 c).1 ∨
          i ∈ idsE (icopyE rest (icopyV kv.2 c).2).1 := by
        simpa [icopyE, idsE] using h
      rcases h2 with h2 | h2
      · exact icopyV_ids_ge kv.2 c i h2
      · exact Nat.le_trans (icopyV_counter kv.2 c)
          (icopyE_ids_ge rest (icopyV kv.2 c).2 i h2)
end


theorem idsE_append (a b : List (String × IVal)) :
    idsE (a ++ b) = idsE a ++ idsE b := by
  induction a with
  | nil => rfl
  | cons kv rest ih => simp [idsE, ih]

theorem iGet_ids (m : List (String × IVal)) (k : String) (v : IVal)
    (h : iGet m k = some v) : ∀ i ∈ idsV v, i ∈ idsE m := by
  induction m with
  | nil => cases h
  | cons kv rest ih =>
    intro i hi
    simp only [iGet] at h
    by_cases hk : kv.1 = k
    · rw [if_pos hk] at h
      injection h with h
      subst h
      simp only [idsE, List.mem_append]
      exact Or.inl hi
    · rw [if_neg hk] at h
      simp only [idsE, List.mem_append]
      exact Or.inr (ih h i hi)

theorem iSet_ids (m : List (String × IVal)) (k : String) (v : IVal) :
    ∀ i ∈ idsE (iSet m k v), i ∈ idsE m ∨ i ∈ idsV v := by
  induction m with
  | nil =>
    intro i hi
    simp only [iSet, idsE, List.append_nil] at hi
    exact Or.inr (by simpa using hi)
  | cons kv rest ih =>
    intro i hi
    simp only [iSet] at hi
    by_cases hk : kv.1 = k
    · rw [if_pos hk] at hi
      simp only [idsE, List.mem_append] at hi ⊢
      rcases hi with hi | hi
      · exact Or.inr hi
      · exact Or.inl (Or.inr hi)
    · rw [if_neg hk] at hi
      simp only [idsE, List.mem_append] at hi ⊢
      rcases hi with hi | hi
      · exact Or.inl (Or.inl hi)
      · rcases ih i hi with h2 | h2
        · exact Or.inl (Or.inr h2)
        · exact Or.inr h2

theorem iPop_ids (m : List (String × IVal)) (k : String) :
    ∀ i ∈ idsE (iPop m k), i ∈ idsE m := by
  induction m with
  | nil => intro i hi; cases hi
  | cons kv rest ih =>
    intro i hi
    simp only [iPop] at hi
    by_cases hk : kv.1 = k
    · rw [if_pos hk] at hi
      simp only [idsE, List.mem_append]
      exact Or.inr hi
    · rw [if_neg hk] at hi
      simp only [idsE, List.mem_append] at hi ⊢
      rcases hi with hi | hi
      · exact Or.inl hi
      · exact Or.inr (ih i hi)


theorem icleanStep_fold_frame (cid cLow : Nat) (dd : List (String × IVal)) :
    ∀ ents c log, cLow ≤ c → (∀ i ∈ idsE ents, cLow ≤ i) →
      c ≤ (dd.foldl (icleanStep cid) (ents, c, log)).2.1 ∧
      (∀ i ∈ idsE (dd.foldl (icleanStep cid) (ents, c, log)).1, cLow ≤ i) ∧
      ∃ Δ, (dd.foldl (icleanStep cid) (ents, c, log)).2.2 = log ++ Δ ∧
        ∀ i ∈ Δ, i = cid := by
  induction dd with
  | nil =>
    intro ents c log hc hents
    exact ⟨Nat.le_refl _, hents, [], by simp, by simp⟩
  | cons kv rest ih =>
    intro ents c log hc hents
    simp only [List.foldl_cons, icleanStep]
    by_cases ha : (kv.1 = "aliases" || kv.1 = "variations") = true
    · rw [if_pos ha]
      exact ih ents c log hc hents
    · rw [if_neg ha]
      have hc2 : cLow ≤ (icopyV kv.2 c).2 := Nat.le_trans hc (icopyV_counter kv.2 c)
      have hents2 : ∀ i ∈ idsE (iSet ents kv.1 (icopyV kv.2 c).1), cLow ≤ i := by
        intro i hi
        rcases iSet_ids ents kv.1 (icopyV kv.2 c).1 i hi with h2 | h2
        · exact hents i h2
        · exact Nat.le_trans hc (icopyV_ids_ge kv.2 c i h2)
      obtain ⟨h1, h2, Δ, h3, h4⟩ := ih _ _ _ hc2 hents2
      refine ⟨Nat.le_trans (icopyV_counter kv.2 c) h1, h2, [cid] ++ Δ, ?_, ?_⟩
      · rw [h3, List.append_assoc]
      · intro i hi
        rcases List.mem_append.mp hi with hi | hi
        · simpa using hi
        · exact h4 i hi

theorem ipop_fold_subset (keys : List String) :
    ∀ d, ∀ i ∈ idsE (keys.foldl (fun d k => iPop d k) d), i ∈ idsE d := by
  induction keys with
  | nil => intro d i hi; exact hi
  | cons k rest ih =>
    intro d i hi
    simp only [List.foldl_cons] at hi
    exact iPop_ids d k i (ih (iPop d k) i hi)

theorem iassignRef_fold_frame (dirsId : Nat) (other : IVal) (keys : List String) :
    ∀ dirs c log,
      (keys.foldl (iassignRef dirsId other) (dirs, c, log)).2.1 = c ∧
      (∀ i ∈ idsE (keys.foldl (iassignRef dirsId other) (dirs, c, log)).1,
        i ∈ idsE dirs ∨ i ∈ idsV other) ∧
      ∃ Δ, (keys.foldl (iassignRef dirsId other) (dirs, c, log)).2.2 = log ++ Δ ∧
        ∀ i ∈ Δ, i = dirsId := by
  induction keys with
  | nil =>
    intro dirs c log
    exact ⟨rfl, fun i hi => Or.inl hi, [], by simp, by simp⟩
  | cons k rest ih =>
    intro dirs c log
    simp only [List.foldl_cons, iassignRef]
    obtain ⟨h1, h2, Δ, h3, h4⟩ := ih (iSet dirs k other) c (log ++ [dirsId])
    refine ⟨h1, ?_, [dirsId] ++ Δ, ?_, ?_⟩
    · intro i hi
      rcases h2 i hi with h5 | h5
      · rcases iSet_ids dirs k other i h5 with h6 | h6
        · exact Or.inl h6
        · exact Or.inr h6
      · exact Or.inr h5
    · rw [h3, List.append_assoc]
    · intro i hi
      rcases List.mem_append.mp hi with hi | hi
      · simpa using hi
      · exact h4 i hi

theorem iassignDict_fold_frame (dirsId : Nat) (cl : IDictObj) (keys : List String) :
    ∀ dirs c log,
      c ≤ (keys.foldl (iassignDict dirsId cl) (dirs, c, log)).2.1 ∧
      (∀ i ∈ idsE (keys.foldl (iassignDict dirsId cl) (dirs, c, log)).1,
        i ∈ idsE dirs ∨ c ≤ i) ∧
      ∃ Δ, (keys.foldl (iassignDict dirsId cl) (dirs, c, log)).2.2 = log ++ Δ ∧
        ∀ i ∈ Δ, i = dirsId := by
  induction keys with
  | nil =>
    intro dirs c log
    exact ⟨Nat.le_refl _, fun i hi => Or.inl hi, [], by simp, by simp⟩
  | cons k rest ih =>
    intro dirs c log
    simp only [List.foldl_cons, iassignDict]
    obtain ⟨h1, h2, Δ, h3, h4⟩ :=
      ih (iSet dirs k (icopyV (IVal.dict cl.1 cl.2) c).1)
        (icopyV (IVal.dict cl.1 cl.2) c).2 (log ++ [dirsId])
    refine ⟨Nat.le_trans (icopyV_counter _ c) h1, ?_, [dirsId] ++ Δ, ?_, ?_⟩
    · intro i hi
      rcases h2 i hi with h5 | h5
      · rcases iSet_ids dirs k (icopyV (IVal.dict cl.1 cl.2) c).1 i h5 with h6 | h6
        · exact Or.inl h6
        · exact Or.inr (icopyV_ids_ge _ c i h6)
      · exact Or.inr (Nat.le_trans (icopyV_counter _ c) h5)
    · rw [h3, List.append_assoc]
    · intro i hi
      rcases List.mem_append.mp hi with hi | hi
      · simpa using hi
      · exact h4 i hi


theorem iclean_frame (dd : List (String × IVal)) (c : Nat) (log : List Nat) :
    c ≤ (iclean dd c log).2.1 ∧
    (∀ i ∈ idsE (iclean dd c log).1.2, c ≤ i) ∧
    ∃ Δ, (iclean dd c log).2.2 = log ++ Δ ∧ ∀ i ∈ Δ, i = c := by
  obtain ⟨h1, h2, Δ, h3, h4⟩ :=
    icleanStep_fold_frame c c dd [] (c + 1) log (Nat.le_succ c) (by intro i hi; cases hi)
  exact ⟨Nat.le_trans (Nat.le_succ c) h1, h2, Δ, h3, h4⟩

theorem iapplyEntry_frame (dirsId : Nat) (fd : String × IVal)
    (dirs : List (String × IVal)) (c : Nat) (log : List Nat) :
    c ≤ (iapplyEntry dirsId (dirs, c, log) fd).2.1 ∧
    (∀ i ∈ idsE (iapplyEntry dirsId (dirs, c, log) fd).1,
      i ∈ idsE dirs ∨ i ∈ idsV fd.2 ∨ c ≤ i) ∧
    ∃ Δ, (iapplyEntry dirsId (dirs, c, log) fd).2.2 = log ++ Δ ∧
      ∀ i ∈ Δ, i = dirsId ∨ c ≤ i := by
  obtain ⟨raw, dv⟩ := fd
  simp only [iapplyEntry]
  cases dv with
  | null =>
    simp only []
    exact ⟨Nat.le_refl _,
      fun i hi => Or.inl (iPop_ids dirs raw i (ipop_fold_subset _ _ i hi)),
      [dirsId], rfl, fun i hi => Or.inl (by simpa using hi)⟩
  | dict did dd =>
    simp only []
    obtain ⟨hc1, hents, Δc, hlog, hΔc⟩ := iclean_frame dd c log
    obtain ⟨h1, h2, Δa, h3, h4⟩ :=
      iassignDict_fold_frame dirsId (iclean dd c log).1 (iexpand raw (IVal.dict did dd))
        dirs (iclean dd c log).2.1 (iclean dd c log).2.2
    refine ⟨Nat.le_trans hc1 h1, ?_, Δc ++ Δa, ?_, ?_⟩
    · intro i hi
      rcases h2 i hi with h5 | h5
      · exact Or.inl h5
      · exact Or.inr (Or.inr (Nat.le_trans hc1 h5))
    · rw [h3, hlog, List.append_assoc]
    · intro i hi
      rcases List.mem_append.mp hi with hi | hi
      · exact Or.inr (Nat.le_of_eq (hΔc i hi).symm)
      · exact Or.inl (h4 i hi)
  | bool b =>
    simp only []
    obtain ⟨h1, h2, Δ, h3, h4⟩ :=
      iassignRef_fold_frame dirsId (IVal.bool b) (iexpand raw (IVal.bool b)) dirs c log
    exact ⟨Nat.le_of_eq h1.symm,
      fun i hi => (h2 i hi).elim Or.inl (fun h5 => Or.inr (Or.inl h5)),
      Δ, h3, fun i hi => Or.inl (h4 i hi)⟩
  | int n =>
    simp only []
    obtain ⟨h1, h2, Δ, h3, h4⟩ :=
      iassignRef_fold_frame dirsId (IVal.int n) (iexpand raw (IVal.int n)) dirs c log
    exact ⟨Nat.le_of_eq h1.symm,
      fun i hi => (h2 i hi).elim Or.inl (fun h5 => Or.inr (Or.inl h5)),
      Δ, h3, fun i hi => Or.inl (h4 i hi)⟩
  | str sv =>
    simp only []
    obtain ⟨h1, h2, Δ, h3, h4⟩ :=
      iassignRef_fold_frame dirsId (IVal.str sv) (iexpand raw (IVal.str sv)) dirs c log
    exact ⟨Nat.le_of_eq h1.symm,
      fun i hi => (h2 i hi).elim Or.inl (fun h5 => Or.inr (Or.inl h5)),
      Δ, h3, fun i hi => Or.inl (h4 i hi)⟩
  | list lid xs =>
    simp only []
    obtain ⟨h1, h2, Δ, h3, h4⟩ :=
      iassignRef_fold_frame dirsId (IVal.list lid xs) (iexpand raw (IVal.list lid xs)) dirs c log
    exact ⟨Nat.le_of_eq h1.symm,
      fun i hi => (h2 i hi).elim Or.inl (fun h5 => Or.inr (Or.inl h5)),
      Δ, h3, fun i hi => Or.inl (h4 i hi)⟩

theorem iapplyDirectives_frame (dirsId : Nat) (dOv : List (String × IVal)) :
    ∀ dirs c log,
      c ≤ (iapplyDirectives dirsId dOv dirs c log).2.1 ∧
      (∀ i ∈ idsE (iapplyDirectives dirsId dOv dirs c log).1,
        i ∈ idsE dirs ∨ i ∈ idsE dOv ∨ c ≤ i) ∧
      ∃ Δ, (iapplyDirectives dirsId dOv dirs c log).2.2 = log ++ Δ ∧
        ∀ i ∈ Δ, i = dirsId ∨ c ≤ i := by
  induction dOv with
  | nil =>
    intro dirs c log
    exact ⟨Nat.le_refl _, fun i hi => Or.inl hi, [], by simp [iapplyDirectives], by simp⟩
  | cons fd rest ih =>
    intro dirs c log
    have hstep : iapplyDirectives dirsId (fd :: rest) dirs c log =
        iapplyDirectives dirsId rest (iapplyEntry dirsId (dirs, c, log) fd).1
          (iapplyEntry dirsId (dirs, c, log) fd).2.1
          (iapplyEntry dirsId (dirs, c, log) fd).2.2 := rfl
    rw [hstep]
    obtain ⟨e1, e2, Δ1, e3, e4⟩ := iapplyEntry_frame dirsId fd dirs c log
    obtain ⟨i1, i2, Δ2, i3, i4⟩ := ih (iapplyEntry dirsId (dirs, c, log) fd).1
      (iapplyEntry dirsId (dirs, c, log) fd).2.1
      (iapplyEntry dirsId (dirs, c, log) fd).2.2
    refine ⟨Nat.le_trans e1 i1, ?_, Δ1 ++ Δ2, ?_, ?_⟩
    · intro i hi
      have hmem : ∀ j, j ∈ idsV fd.2 → j ∈ idsE (fd :: rest) := by
        intro j hj
        show j ∈ idsV fd.2 ++ idsE rest
        exact List.mem_append_left _ hj
      have hrest : ∀ j, j ∈ idsE rest → j ∈ idsE (fd :: rest) := by
        intro j hj
        show j ∈ idsV fd.2 ++ idsE rest
        exact List.mem_append_right _ hj
      rcases i2 i hi with h5 | h5 | h5
      · rcases e2 i h5 with h6 | h6 | h6
        · exact Or.inl h6
        · exact Or.inr (Or.inl (hmem i h6))
        · exact Or.inr (Or.inr h6)
      · exact Or.inr (Or.inl (hrest i h5))
      · exact Or.inr (Or.inr (Nat.le_trans e1 h5))
    · rw [i3, e3, List.append_assoc]
    · intro i hi
      rcases List.mem_append.mp hi with hi | hi
      · exact e4 i hi
      · rcases i4 i hi with h5 | h5
        · exact Or.inl h5
        · exact Or.inr (Nat.le_trans e1 h5)


theorem igenericLoop_frame (resultId : Nat)
    (rec : IDictObj → IDictObj → Nat → List Nat → Option IDictObj × Nat × List Nat)
    (hrec : ∀ b o c log md c2 log2, rec b o c log = (some md, c2, log2) →
      c ≤ c2 ∧ c ≤ md.1 ∧ (∀ i ∈ idsE md.2, i ∈ idsE o.2 ∨ c ≤ i) ∧
      ∃ Δ, log2 = log ++ Δ ∧ ∀ i ∈ Δ, c ≤ i) :
    ∀ ovEnts rEnts c log r2 c2 log2,
      igenericLoop resultId rec rEnts ovEnts c log = (some r2, c2, log2) →
      c ≤ c2 ∧ (∀ i ∈ idsE r2, i ∈ idsE rEnts ∨ i ∈ idsE ovEnts ∨ c ≤ i) ∧
      ∃ Δ, log2 = log ++ Δ ∧ ∀ i ∈ Δ, i = resultId ∨ c ≤ i := by
  intro ovEnts
  induction ovEnts with
  | nil =>
    intro rEnts c log r2 c2 log2 h
    simp only [igenericLoop] at h
    injection h with h1 h23
    injection h23 with h2 h3
    injection h1 with h1
    subst h1
    subst h2
    subst h3
    exact ⟨Nat.le_refl _, fun i hi => Or.inl hi, [], by simp, by simp⟩
  | cons kv rest ih =>
    intro rEnts c log r2 c2 log2 h
    obtain ⟨k, v⟩ := kv
    simp only [igenericLoop] at h
    by_cases hk : k = "directives"
    · rw [if_pos hk] at h
      obtain ⟨h1, h2, Δ, h3, h4⟩ := ih rEnts c log r2 c2 log2 h
      refine ⟨h1, ?_, Δ, h3, h4⟩
      intro i hi
      rcases h2 i hi with h5 | h5 | h5
      · exact Or.inl h5
      · exact Or.inr (Or.inl (show i ∈ idsV v ++ idsE rest from List.mem_append_right _ h5))
      · exact Or.inr (Or.inr h5)
    · rw [if_neg hk] at h
      have hother : ∀ w : IVal,
          igenericLoop resultId rec (iSet rEnts k (icopyV w c).1) rest (icopyV w c).2
            (log ++ [resultId]) = (some r2, c2, log2) →
          c ≤ c2 ∧ (∀ i ∈ idsE r2, i ∈ idsE rEnts ∨ i ∈ idsV w ++ idsE rest ∨ c ≤ i) ∧
          ∃ Δ, log2 = log ++ Δ ∧ ∀ i ∈ Δ, i = resultId ∨ c ≤ i := by
        intro w hw
        obtain ⟨g1, g2, Δg, g3, g4⟩ := ih _ _ _ _ _ _ hw
        refine ⟨Nat.le_trans (icopyV_counter w c) g1, ?_, [resultId] ++ Δg, ?_, ?_⟩
        · intro i hi
          rcases g2 i hi with h5 | h5 | h5
          · rcases iSet_ids rEnts k (icopyV w c).1 i h5 with h6 | h6
            · exact Or.inl h6
            · exact Or.inr (Or.inr (icopyV_ids_ge w c i h6))
          · exact Or.inr (Or.inl (List.mem_append_right _ h5))
          · exact Or.inr (Or.inr (Nat.le_trans (icopyV_counter w c) h5))
        · rw [g3, List.append_assoc]
        · intro i hi
          rcases List.mem_append.mp hi with hi | hi
          · exact Or.inl (by simpa using hi)
          · rcases g4 i hi with h5 | h5
            · exact Or.inl h5
            · exact Or.inr (Nat.le_trans (icopyV_counter w c) h5)
      cases v with
      | null =>
        simp only [] at h
        obtain ⟨h1, h2, Δ, h3, h4⟩ := ih _ _ _ _ _ _ h
        refine ⟨h1, ?_, [resultId] ++ Δ, ?_, ?_⟩
        · intro i hi
          rcases h2 i hi with h5 | h5 | h5
          · exact Or.inl (iPop_ids rEnts k i h5)
          · exact Or.inr (Or.inl (show i ∈ idsV IVal.null ++ idsE rest from
              List.mem_append_right _ h5))
          · exact Or.inr (Or.inr h5)
        · rw [h3, List.append_assoc]
        · intro i hi
          rcases List.mem_append.mp hi with hi | hi
          · exact Or.inl (by simpa using hi)
          · rcases h4 i hi with h5 | h5
            · exact Or.inl h5
            · exact Or.inr h5
      | dict vid vm =>
        simp only [] at h
        have hcont : ∀ (eb : IDictObj) (ec : Nat), c ≤ ec →
            (match rec eb (vid, vm) ec log with
             | (none, c3, log3) => (none, c3, log3)
             | (some md, c3, log3) =>
                 igenericLoop resultId rec (iSet rEnts k (IVal.dict md.1 md.2)) rest c3
                   (log3 ++ [resultId])) = (some r2, c2, log2) →
            c ≤ c2 ∧
            (∀ i ∈ idsE r2, i ∈ idsE rEnts ∨ i ∈ idsE ((k, IVal.dict vid vm) :: rest) ∨
              c ≤ i) ∧
            ∃ Δ, log2 = log ++ Δ ∧ ∀ i ∈ Δ, i = resultId ∨ c ≤ i := by
          intro eb ec hec hm
          cases hr : rec eb (vid, vm) ec log with
          | mk o pr =>
            obtain ⟨c3, log3⟩ := pr
            rw [hr] at hm
            cases o with
            | none => simp only [] at hm; exact absurd hm (by simp)
            | some md =>
              simp only [] at hm
              obtain ⟨q1, q2, qids, Δr, q3, q4⟩ := hrec eb (vid, vm) ec log md c3 log3 hr
              obtain ⟨g1, g2, Δg, g3, g4⟩ := ih _ _ _ _ _ _ hm
              refine ⟨Nat.le_trans hec (Nat.le_trans q1 g1), ?_,
                Δr ++ ([resultId] ++ Δg), ?_, ?_⟩
              · intro i hi
                rcases g2 i hi with h5 | h5 | h5
                · rcases iSet_ids rEnts k (IVal.dict md.1 md.2) i h5 with h6 | h6
                  · exact Or.inl h6
                  · have h7 : i = md.1 ∨ i ∈ idsE md.2 := by simpa [idsV] using h6
                    rcases h7 with h7 | h7
                    · subst h7
                      exact Or.inr (Or.inr (Nat.le_trans hec q2))
                    · rcases qids i h7 with h8 | h8
                      · refine Or.inr (Or.inl ?_)
                        show i ∈ idsV (IVal.dict vid vm) ++ idsE rest
                        exact List.mem_append_left _ (by simp [idsV, h8])
                      · exact Or.inr (Or.inr (Nat.le_trans hec h8))
                · refine Or.inr (Or.inl ?_)
                  show i ∈ idsV (IVal.dict vid vm) ++ idsE rest
                  exact List.mem_append_right _ h5
                · exact Or.inr (Or.inr (Nat.le_trans hec (Nat.le_trans q1 h5)))
              · rw [g3, q3]
                simp [List.append_assoc]
              · intro i hi
                rcases List.mem_append.mp hi with hi | hi
                · exact Or.inr (Nat.le_trans hec (q4 i hi))
                · rcases List.mem_append.mp hi with hi | hi
                  · exact Or.inl (by simpa using hi)
                  · rcases g4 i hi with h5 | h5
                    · exact Or.inl h5
                    · exact Or.inr (Nat.le_trans hec (Nat.le_trans q1 h5))
        cases hg : iGet rEnts k with
        | none =>
          rw [hg] at h
          simp only [] at h
          exact hcont (c, []) (c + 1) (Nat.le_succ c) h
        | some v2 =>
          rw [hg] at h
          cases v2 with
          | dict eid em =>
            simp only [] at h
            exact hcont (eid, em) c (Nat.le_refl c) h
          | null =>
            simp only [] at h
            exact hcont (c, []) (c + 1) (Nat.le_succ c) h
          | bool b2 =>
            simp only [] at h
            exact hcont (c, []) (c + 1) (Nat.le_succ c) h
          | int n2 =>
            simp only [] at h
            exact hcont (c, []) (c + 1) (Nat.le_succ c) h
          | str s2 =>
            simp only [] at h
            exact hcont (c, []) (c + 1) (Nat.le_succ c) h
          | list lid2 xs2 =>
            simp only [] at h
            exact hcont (c, []) (c + 1) (Nat.le_succ c) h
      | bool b =>
        simp only [] at h
        exact hother (IVal.bool b) h
      | int n =>
        simp only [] at h
        exact hother (IVal.int n) h
      | str sv =>
        simp only [] at h
        exact hother (IVal.str sv) h
      | list lid xs =>
        simp only [] at h
        exact hother (IVal.list lid xs) h


theorem imergeF_frame : ∀ (fuel : Nat) (base overlay : IDictObj) (c : Nat) (log : List Nat)
    (res : IDictObj) (c2 : Nat) (log2 : List Nat),
    imergeF fuel base overlay c log = (some res, c2, log2) →
    c ≤ c2 ∧ c ≤ res.1 ∧ (∀ i ∈ idsE res.2, i ∈ idsE overlay.2 ∨ c ≤ i) ∧
    ∃ Δ, log2 = log ++ Δ ∧ ∀ i ∈ Δ, c ≤ i := by
  intro fuel
  induction fuel with
  | zero =>
    intro base overlay c log res c2 log2 h
    exact absurd h (by simp [imergeF])
  | succ f ih =>
    intro base overlay c log res c2 log2 h
    simp only [imergeF] at h
    have hrc : ∀ i ∈ idsE (icopyE base.2 (c + 1)).1, c ≤ i :=
      fun i hi => Nat.le_trans (Nat.le_succ c) (icopyE_ids_ge base.2 (c + 1) i hi)
    have hc1 : c ≤ (icopyE base.2 (c + 1)).2 :=
      Nat.le_trans (Nat.le_succ c) (icopyE_counter base.2 (c + 1))
    have hstep2 : ∀ (r1 : List (String × IVal)) (cm : Nat) (logm : List Nat),
        c ≤ cm →
        (∀ i ∈ idsE r1, i ∈ idsE overlay.2 ∨ c ≤ i) →
        (∃ Δ0, logm = log ++ Δ0 ∧ ∀ i ∈ Δ0, c ≤ i) →
        (match igenericLoop c (imergeF f) r1 overlay.2 cm logm with
         | (none, c3, log3) => (none, c3, log3)
         | (some r2, c3, log3) => (some (c, r2), c3, log3)) = (some res, c2, log2) →
        c ≤ c2 ∧ c ≤ res.1 ∧ (∀ i ∈ idsE res.2, i ∈ idsE overlay.2 ∨ c ≤ i) ∧
        ∃ Δ, log2 = log ++ Δ ∧ ∀ i ∈ Δ, c ≤ i := by
      intro r1 cm logm hcm hids ⟨Δ0, hlm, hΔ0⟩ hm
      cases hloop : igenericLoop c (imergeF f) r1 overlay.2 cm logm with
      | mk o pr =>
        obtain ⟨c3, log3⟩ := pr
        rw [hloop] at hm
        cases o with
        | none => simp only [] at hm; exact absurd hm (by simp)
        | some r2 =>
          simp only [] at hm
          injection hm with hm1 hm23
          injection hm23 with hm2 hm3
          injection hm1 with hm1
          subst hm1
          subst hm2
          subst hm3
          obtain ⟨g1, g2, Δg, g3, g4⟩ :=
            igenericLoop_frame c (imergeF f)
              (fun b o cc ll md cc2 ll2 hh => ih b o cc ll md cc2 ll2 hh)
              overlay.2 r1 cm logm r2 c3 log3 hloop
          refine ⟨Nat.le_trans hcm g1, Nat.le_refl c, ?_, Δ0 ++ Δg, ?_, ?_⟩
          · intro i hi
            rcases g2 i hi with h5 | h5 | h5
            · exact hids i h5
            · exact Or.inl h5
            · exact Or.inr (Nat.le_trans hcm h5)
          · rw [g3, hlm, List.append_assoc]
          · intro i hi
            rcases List.mem_append.mp hi with hi | hi
            · exact hΔ0 i hi
            · rcases g4 i hi with h5 | h5
              · exact Nat.le_of_eq h5.symm
              · exact Nat.le_trans hcm h5
    have htriv :
        (match igenericLoop c (imergeF f) (icopyE base.2 (c + 1)).1 overlay.2
            (icopyE base.2 (c + 1)).2 log with
         | (none, c3, log3) => (none, c3, log3)
         | (some r2, c3, log3) => (some (c, r2), c3, log3)) = (some res, c2, log2) →
        c ≤ c2 ∧ c ≤ res.1 ∧ (∀ i ∈ idsE res.2, i ∈ idsE overlay.2 ∨ c ≤ i) ∧
        ∃ Δ, log2 = log ++ Δ ∧ ∀ i ∈ Δ, c ≤ i :=
      hstep2 (icopyE base.2 (c + 1)).1 (icopyE base.2 (c + 1)).2 log hc1
        (fun i hi => Or.inr (hrc i hi)) ⟨[], by simp, by simp⟩
    cases hgo : iGet overlay.2 "directives" with
    | none =>
      rw [hgo] at h
      simp only [] at h
      exact htriv h
    | some dv =>
      rw [hgo] at h
      cases dv with
      | null => simp only [] at h; exact htriv h
      | bool b => simp only [] at h; exact htriv h
      | int n => simp only [] at h; exact htriv h
      | str sv => simp only [] at h; exact htriv h
      | list lid xs => simp only [] at h; exact htriv h
      | dict did dOv =>
        simp only [] at h
        have hdovm : ∀ i ∈ idsE dOv, i ∈ idsE overlay.2 := by
          intro i hi
          refine iGet_ids overlay.2 "directives" _ hgo i ?_
          show i ∈ did :: idsE dOv
          exact List.mem_cons_of_mem _ hi
        cases hgr : iGet (icopyE base.2 (c + 1)).1 "directives" with
        | none =>
          rw [hgr] at h
          simp only [] at h
          obtain ⟨a1, a2, Δa, a3, a4⟩ :=
            iapplyDirectives_frame (icopyE base.2 (c + 1)).2 dOv []
              ((icopyE base.2 (c + 1)).2 + 1) (log ++ [c])
          refine hstep2 _ _ _ (Nat.le_trans hc1 (Nat.le_trans (Nat.le_succ _) a1)) ?_
            ⟨[c] ++ Δa, ?_, ?_⟩ h
          · intro i hi
            rw [idsE_append] at hi
            rcases List.mem_append.mp hi with hi | hi
            · exact Or.inr (hrc i hi)
            · have h6 : i = (icopyE base.2 (c + 1)).2 ∨
                  i ∈ idsE (iapplyDirectives (icopyE base.2 (c + 1)).2 dOv []
                    ((icopyE base.2 (c + 1)).2 + 1) (log ++ [c])).1 := by
                simpa [idsE, idsV] using hi
              rcases h6 with h6 | h6
              · subst h6
                exact Or.inr hc1
              · rcases a2 i h6 with h7 | h7 | h7
                · cases h7
                · exact Or.inl (hdovm i h7)
                · exact Or.inr (Nat.le_trans hc1 (Nat.le_trans (Nat.le_succ _) h7))
          · rw [a3, List.append_assoc]
          · intro i hi
            rcases List.mem_append.mp hi with hi | hi
            · have h5 : i = c := by simpa using hi
              exact Nat.le_of_eq h5.symm
            · rcases a4 i hi with h5 | h5
              · subst h5; exact hc1
              · exact Nat.le_trans hc1 (Nat.le_trans (Nat.le_succ _) h5)
        | some ev =>
          rw [hgr] at h
          cases ev with
          | dict dId dEnts =>
            simp only [] at h
            have hdid : c ≤ dId := hrc dId (iGet_ids _ _ _ hgr dId
              (show dId ∈ dId :: idsE dEnts from List.mem_cons_self _ _))
            have hdents : ∀ i ∈ idsE dEnts, c ≤ i := by
              intro i hi
              refine hrc i (iGet_ids _ _ _ hgr i ?_)
              show i ∈ dId :: idsE dEnts
              exact List.mem_cons_of_mem _ hi
            obtain ⟨a1, a2, Δa, a3, a4⟩ :=
              iapplyDirectives_frame dId dOv dEnts (icopyE base.2 (c + 1)).2 log
            refine hstep2 _ _ _ (Nat.le_trans hc1 a1) ?_ ⟨Δa, a3, ?_⟩ h
            · intro i hi
              rcases iSet_ids _ _ _ i hi with h5 | h5
              · exact Or.inr (hrc i h5)
              · have h6 : i = dId ∨
                    i ∈ idsE (iapplyDirectives dId dOv dEnts
                      (icopyE base.2 (c + 1)).2 log).1 := by
                  simpa [idsV] using h5
                rcases h6 with h6 | h6
                · subst h6; exact Or.inr hdid
                · rcases a2 i h6 with h7 | h7 | h7
                  · exact Or.inr (hdents i h7)
                  · exact Or.inl (hdovm i h7)
                  · exact Or.inr (Nat.le_trans hc1 h7)
            · intro i hi
              rcases a4 i hi with h5 | h5
              · subst h5; exact hdid
              · exact Nat.le_trans hc1 h5
          | null =>
            simp only [] at h
            by_cases he : dOv.isEmpty = true
            · rw [if_pos he] at h
              simp only [] at h
              exact htriv h
            · rw [if_neg he] at h
              simp only [] at h
              exact absurd h (by simp)
          | bool b2 =>
            simp only [] at h
            by_cases he : dOv.isEmpty = true
            · rw [if_pos he] at h
              simp only [] at h
              exact htriv h
            · rw [if_neg he] at h
              simp only [] at h
              exact absurd h (by simp)
          | int n2 =>
            simp only [] at h
            by_cases he : dOv.isEmpty = true
            · rw [if_pos he] at h
              simp only [] at h
              exact htriv h
            · rw [if_neg he] at h
              simp only [] at h
              exact absurd h (by simp)
          | str s2 =>
            simp only [] at h
            by_cases he : dOv.isEmpty = true
            · rw [if_pos he] at h
              simp only [] at h
              exact htriv h
            · rw [if_neg he] at h
              simp only [] at h
              exact absurd h (by simp)
          | list lid2 xs2 =>
            simp only [] at h
            by_cases he : dOv.isEmpty = true
            · rw [if_pos he] at h
              simp only [] at h
              exact htriv h
            · rw [if_neg he] at h
              simp only [] at h
              exact absurd h (by simp)


/-- C2 counterexample: the merge assigns a list directive from the
overlay into the result BY REFERENCE (`directives[actual_key] =
directive`, superflag.py line 153), so the returned tree shares the
mutable list object (identity 3) with the overlay: in the
identity-labelled model `imergeF` the overlay list id 3 reappears in
the result, refuting the no-aliasing claim. -/
theorem c2_counterexample :
    imergeF 2 (0, ([] : List (String × IVal)))
        (1, [("directives", IVal.dict 2 [("--x", IVal.list 3 [IVal.int 1])])]) 10 [] =
      (some (10, [("directives", IVal.dict 11 [("--x", IVal.list 3 [IVal.int 1])])]), 12,
        [10, 11]) ∧
    3 ∈ idsE [("directives", IVal.dict 11 [("--x", IVal.list 3 [IVal.int 1])])] ∧
    3 ∈ idsE [("directives", IVal.dict 2 [("--x", IVal.list 3 [IVal.int 1])])] :=
  ⟨rfl, by decide, by decide⟩

/-- C2 (amended): `merge_configs(A, B)` never mutates A or B — every
mutation in the log hits an object allocated at or after the starting
counter, hence neither an object of A nor of B — and the returned tree
never aliases any substructure of A (the deep copy of the base is
fresh); aliasing of B is possible (see the counterexample), but every
object identity in the result stems from B or is freshly allocated. -/
theorem c2_amended_no_input_mutation (fuel : Nat) (base overlay : IDictObj) (c0 : Nat)
    (res : IDictObj) (c2 : Nat) (log : List Nat)
    (hbase : ∀ i, i = base.1 ∨ i ∈ idsE base.2 → i < c0)
    (hov : ∀ i, i = overlay.1 ∨ i ∈ idsE overlay.2 → i < c0)
    (hdisj : ∀ i, i = base.1 ∨ i ∈ idsE base.2 → ¬(i = overlay.1 ∨ i ∈ idsE overlay.2))
    (h : imergeF fuel base overlay c0 [] = (some res, c2, log)) :
    (∀ i ∈ log, ¬(i = base.1 ∨ i ∈ idsE base.2) ∧
      ¬(i = overlay.1 ∨ i ∈ idsE overlay.2)) ∧
    (∀ i, i = res.1 ∨ i ∈ idsE res.2 → ¬(i = base.1 ∨ i ∈ idsE base.2)) := by
  obtain ⟨h1, h2, h3, Δ, h4, h5⟩ := imergeF_frame fuel base overlay c0 [] res c2 log h
  have hΔ : log = Δ := by simpa using h4
  subst hΔ
  constructor
  · intro i hi
    have hge : c0 ≤ i := h5 i hi
    constructor
    · intro hb
      exact absurd (hbase i hb) (by omega)
    · intro hb
      exact absurd (hov i hb) (by omega)
  · intro i hres hb
    have hlt : i < c0 := hbase i hb
    rcases hres with hres | hres
    · subst hres
      exact absurd h2 (by omega)
    · rcases h3 i hres with hov2 | hge
      · exact hdisj i hb (Or.inr hov2)
      · omega

/-- C2 witness: the amended theorem applied to the counterexample
instance — no mutated object and no result object belongs to the base,
and no mutated object belongs to the overlay. -/
theorem c2_amended_no_input_mutation_witness :
    (∀ i ∈ [10, 11], ¬(i = 0 ∨ i ∈ idsE ([] : List (String × IVal))) ∧
      ¬(i = 1 ∨ i ∈ idsE [("directives", IVal.dict 2 [("--x", IVal.list 3 [IVal.int 1])])])) ∧
    (∀ i, i = 10 ∨
        i ∈ idsE [("directives", IVal.dict 11 [("--x", IVal.list 3 [IVal.int 1])])] →
      ¬(i = 0 ∨ i ∈ idsE ([] : List (String × IVal)))) :=
  c2_amended_no_input_mutation 2 (0, [])
    (1, [("directives", IVal.dict 2 [("--x", IVal.list 3 [IVal.int 1])])]) 10
    (10, [("directives", IVal.dict 11 [("--x", IVal.list 3 [IVal.int 1])])]) 12 [10, 11]
    (by
      intro i hi
      have h2 : i = 0 ∨ i ∈ ([] : List Nat) := hi
      rcases h2 with rfl | h2
      · omega
      · cases h2)
    (by
      intro i hi
      have h2 : i = 1 ∨ i ∈ [2, 3] := hi
      rcases h2 with rfl | h2
      · omega
      · rcases (show i = 2 ∨ i = 3 by simpa using h2) with rfl | rfl <;> omega)
    (by
      intro i hi
      have h2 : i = 0 ∨ i ∈ ([] : List Nat) := hi
      rcases h2 with rfl | h2
      · intro hc
        have h3 : (0 : Nat) = 1 ∨ (0 : Nat) ∈ [2, 3] := hc
        rcases h3 with h3 | h3
        · omega
        · simp at h3
      · cases h2)
    rfl

end SuperFlag
